import Mathlib

/-!
Shallow embedding of the FPL data pipeline's incremental-extraction core:
`src/scripts/utility.py`, `src/scripts/fpl_api.py` and `src/pipeline.py`.

Modelling conventions:
* GCS object storage is a list of named blobs `(object name, decoded records)`;
  uploading to an existing name overwrites it (GCS semantics).  The landing
  object's newline-delimited JSON serialization is kept as the record list.
* The BigQuery audit table is an append-only list of `AuditEntry`.
  `load_timestamp` (wall-clock `datetime.now().isoformat()`) is omitted: it is
  environment-supplied and never read back by the code under verification.
* HTTP calls are modelled by passing the decoded upstream response as an
  argument (`Option _`, with `none` for a failed / falsy response), exactly as
  the callers observe it.
* Python `str(n)` on a nonnegative int yields the decimal numeral, modelled by
  `encodeNat`; `int(s)` on such numerals is modelled by `decodeNat?` (the code
  only ever parses strings it has itself written with `str`; on any string
  `int` rejects, the surrounding `except` clause yields 0, which `decodeNat?`'s
  `none` branch reproduces).
* BigQuery `MAX` over a `STRING` column compares strings by code point,
  modelled by `charListLe` on the characters; SQL `MAX` ignores NULLs, modelled
  by folding over the non-`none` watermark strings only.
* Python dicts are insertion-ordered association lists: assignment to an
  existing key updates it in place, assignment to a fresh key appends
  (`dictSet`), `del` removes (`dictDel`).
-/

/-- JSON-like values appearing in extracted records. -/
inductive JVal where
  | int : Int → JVal
  | str : String → JVal
  | bool : Bool → JVal
  | null : JVal
  | obj : List (String × JVal) → JVal

/-- A Python dict with string keys, as an insertion-ordered association list. -/
abbrev Dict := List (String × JVal)

/-- Lookup `d[k]` (first binding wins (first binding wins; Python dicts hold at most one). -/
def dictGet? (d : Dict) (k : String) : Option JVal :=
  (d.find? (fun p => p.1 == k)).map (·.2)

/-- Assignment `d[k] = v`: update the existing binding in place, else append a new one. -/
def dictSet (d : Dict) (k : String) (v : JVal) : Dict :=
  if d.any (fun p => p.1 == k) then
    d.map (fun p => if p.1 == k then (k, v) else p)
  else d ++ [(k, v)]

/-- Deletion `del d[k]`. -/
def dictDel (d : Dict) (k : String) : Dict :=
  d.filter (fun p => p.1 != k)

/-- The keys of a dict, in order. -/
def dictKeys (d : Dict) : List String := d.map (·.1)

/-- Code-point lexicographic `≤` on character lists: the comparison BigQuery
applies to `STRING` values (and Python to `str`). -/
def charListLe : List Char → List Char → Bool
  | [], _ => true
  | _ :: _, [] => false
  | a :: as, b :: bs =>
    if a.toNat < b.toNat then true
    else if b.toNat < a.toNat then false
    else charListLe as bs

/-- Python `s.split(sep)` for a one-character separator (the only kind the code
uses: `"_"`, `"."`, `"/"`). -/
def splitOnChar (sep : Char) : List Char → List (List Char)
  | [] => [[]]
  | c :: cs =>
    let r := splitOnChar sep cs
    if c == sep then [] :: r
    else
      match r with
      | [] => [[c]]
      | g :: gs => (c :: g) :: gs

/-- Python `sub in s` substring test. -/
def containsSeq (l p : List Char) : Bool :=
  match l with
  | [] => p.isEmpty
  | _ :: cs => p.isPrefixOf l || containsSeq cs p

/-- Python `load_type.lower()`. -/
def strToLower (s : String) : String := ⟨s.data.map Char.toLower⟩

/-- The decimal digit characters used by `str(n)`. -/
def decDigitChar : Nat → Char
  | 0 => '0' | 1 => '1' | 2 => '2' | 3 => '3' | 4 => '4'
  | 5 => '5' | 6 => '6' | 7 => '7' | 8 => '8' | _ => '9'

/-- Decimal digits, least significant first, by structural recursion on a
fuel bound (`fuel ≥ n` keeps the first branch unreachable, see
`natDigitsRevFuel_congr`). -/
def natDigitsRevFuel : Nat → Nat → List Char
  | 0, n => [decDigitChar n]
  | fuel + 1, n =>
    if n < 10 then [decDigitChar n]
    else decDigitChar (n % 10) :: natDigitsRevFuel fuel (n / 10)

/-- Decimal digits of `n`, least significant first. -/
def natDigitsRev (n : Nat) : List Char := natDigitsRevFuel n n

/-- Python `str(n)` for a nonnegative int: the decimal numeral. -/
def encodeNat (n : Nat) : String := ⟨(natDigitsRev n).reverse⟩

/-- Python `int(s)` as used on the strings this system stores: parses a
nonempty all-digit string; `none` models the `ValueError` that the caller's
`except` clause turns into 0. -/
def decodeNat? (s : String) : Option Nat :=
  if s.data.isEmpty then none
  else if s.data.all (fun c => 48 ≤ c.toNat && c.toNat ≤ 57) then
    some (s.data.foldl (fun a c => a * 10 + (c.toNat - 48)) 0)
  else none

/-- One gameweek record of the bootstrap `events` list (the fields the core
reads). -/
structure Event where
  id : Nat
  is_current : Bool
  finished : Bool
  data_checked : Bool
deriving DecidableEq

/-- The `DATA_SOURCE` constant of `utility.py`. -/
def DATA_SOURCE : String := "fpl-api"

/-- One row of the BigQuery `audit_log` table, as `write_audit_log` inserts
it (`load_timestamp` omitted, see the header). -/
structure AuditEntry where
  data_source : String
  tablename : String
  load_type : String
  record_count : Nat
  load_watermark : Option String
  status : String

/-- SQL `MAX` over the non-NULL values of a `STRING` column: code-point
lexicographic maximum, `none` on an empty column. -/
def sqlMax (l : List String) : Option String :=
  l.foldl (fun acc s =>
    match acc with
    | none => some s
    | some m => some (if charListLe m.data s.data then s else m)) none

/-- The non-NULL `load_watermark` strings of the audit rows matching
`tablename = table_name AND data_source = DATA_SOURCE` (the `WHERE` clause of
`get_latest_watermark`'s query). -/
def watermarkStrings (ledger : List AuditEntry) (table_name : String) :
    List String :=
  (ledger.filter fun e =>
      e.tablename == table_name && e.data_source == DATA_SOURCE).filterMap
    (·.load_watermark)

/-- Model of `get_latest_watermark(table_name)`: `SELECT MAX(load_watermark) ... WHERE
tablename = ... AND data_source = ...`, then
`int(row.latest_watermark) if row.latest_watermark else 0`, with any exception
(query failure, modelled by `ledger? = none`, or `int` parse failure) caught
and turned into 0. -/
def get_latest_watermark (ledger? : Option (List AuditEntry))
    (table_name : String) : Nat :=
  match ledger? with
  | none => 0
  | some ledger =>
    match sqlMax (watermarkStrings ledger table_name) with
    | none => 0
    | some s => (decodeNat? s).getD 0

/-- Model of `get_latest_finished_gameweek()`: re-fetches `bootstrap-static`
(`events? = none` models a failed fetch, caught and turned into 0), keeps the
events with both `finished` and `data_checked`, and returns the `id` of the
last one (`finished[-1]["id"]`), or 0 if there is none. -/
def get_latest_finished_gameweek (events? : Option (List Event)) : Nat :=
  match events? with
  | none => 0
  | some events =>
    match (events.filter fun e => e.finished && e.data_checked).getLast? with
    | some e => e.id
    | none => 0

/-- The mutable external state a pipeline run touches: the GCS bucket's
objects (name, decoded content) and the BigQuery audit table's rows. -/
structure RunState where
  blobs : List (String × List Dict)
  ledger : List AuditEntry

/-- GCS `blob.upload_from_string`: create the object, overwriting an existing
object of the same name (GCS upload semantics). -/
def uploadBlob (blobs : List (String × List Dict)) (path : String)
    (content : List Dict) : List (String × List Dict) :=
  if blobs.any (fun b => b.1 == path) then
    blobs.map (fun b => if b.1 == path then (path, content) else b)
  else blobs ++ [(path, content)]

/-- The landing object name: `landing/.../{table}/{table}_{today}.json` with the fixed data source between, where `today` is
`datetime.datetime.today().strftime('%d%m%Y')`, passed in as a parameter. -/
def landingPathFor (table today : String) : String :=
  "landing/" ++ DATA_SOURCE ++ "/" ++ table ++ "/" ++
    (table ++ "_" ++ today ++ ".json")

/-- Model of `save_to_landing(table, data)`: no upload and count 0 when `data` is
empty, else upload the whole batch as one newline-delimited JSON object named
with today's date.  Returns only the new state; the returned record count is
`data.length` (0 on the empty early return, `len(data)` otherwise, which
coincide). -/
def save_to_landing (table : String) (data : List Dict) (today : String)
    (s : RunState) : RunState :=
  if data.isEmpty then s
  else { s with blobs := uploadBlob s.blobs (landingPathFor table today) data }

/-- Python `str(watermark_value) if watermark_value else None`: 0 is falsy, so a zero
watermark is stored as NULL. -/
def encodeWatermark (v : Nat) : Option String :=
  if v = 0 then none else some (encodeNat v)

/-- The audit row `write_audit_log` builds:
`{data_source, tablename, load_type, record_count, load_watermark, status}`
(timestamp omitted, see the header). -/
def mkAuditEntry (table lt : String) (record_count watermark_value : Nat) :
    AuditEntry :=
  { data_source := DATA_SOURCE
    tablename := table
    load_type := lt
    record_count := record_count
    load_watermark := encodeWatermark watermark_value
    status := "SUCCESS" }

/-- Model of `write_audit_log(table, load_type, record_count, watermark_value)`:
append one row to the audit table (the success path; an insert failure is
logged and leaves the table unchanged, and the claims under verification all
concern successful runs). -/
def write_audit_log (table lt : String) (record_count : Nat)
    (watermark_value : Nat) (s : RunState) : RunState :=
  { s with
    ledger := s.ledger ++ [mkAuditEntry table lt record_count watermark_value] }

/-- The archive destination `move_existing_files_to_archive` computes for one
object name `file`:
`date_part = file.split("_")[-1].split(".")[0]`,
`day, month, year = date_part[:2], date_part[2:4], date_part[4:]`, then
`f"landing/{DATA_SOURCE}/archive/{table}/{year}/{month}/{day}/{file.split('/')[-1]}"`.
The source wraps the slicing in `except (IndexError, ValueError)` falling back
to the current date, but `split` always returns a nonempty list and string
slicing never raises either exception, so that branch is unreachable and is
not modelled. -/
def archivePathFor (table file : String) : String :=
  let date_part :=
    (splitOnChar '.' ((splitOnChar '_' file.data).getLastD [])).headD []
  let day : String := ⟨date_part.take 2⟩
  let month : String := ⟨(date_part.drop 2).take 2⟩
  let year : String := ⟨date_part.drop 4⟩
  "landing/" ++ DATA_SOURCE ++ "/archive/" ++ table ++ "/" ++
    (year ++ "/" ++ month ++ "/" ++ day ++ "/" ++
      (⟨(splitOnChar '/' file.data).getLastD []⟩ : String))

/-- One iteration of the archive loop: skip names containing `"/archive/"`,
else `copy_blob` to the archive path and delete the source object. -/
def archiveOne (table : String) (blobs : List (String × List Dict))
    (file : String) : List (String × List Dict) :=
  if containsSeq file.data "/archive/".data then blobs
  else
    match blobs.find? (fun b => b.1 == file) with
    | none => blobs
    | some b =>
      (uploadBlob blobs (archivePathFor table file) b.2).filter
        (fun x => x.1 != file)

/-- Model of `move_existing_files_to_archive(table)`: list the objects under
`landing/{DATA_SOURCE}/{table}/` whose names end in `.json`; if none, return;
else relocate each (copy then delete) to its date-partitioned archive path. -/
def move_existing_files_to_archive (table : String) (s : RunState) :
    RunState :=
  let pathStart := "landing/" ++ DATA_SOURCE ++ "/" ++ table ++ "/"
  let existing_files :=
    (s.blobs.filter fun b =>
        pathStart.data.isPrefixOf b.1.data && ".json".data.isSuffixOf b.1.data).map
      (·.1)
  if existing_files.isEmpty then s
  else { s with blobs := existing_files.foldl (archiveOne table) s.blobs }

/-- The Python `range(last_watermark + 1, current_gameweek + 1)` the
incremental branch iterates over: `[w+1, current]` inclusive, ascending. -/
def requestedRange (last_watermark current_gameweek : Nat) : List Nat :=
  List.range' (last_watermark + 1) (current_gameweek - last_watermark)

/-- The incremental branch's accumulation loop: for each gameweek in range,
look the extractor up in `EXTRACTION_MAP` (modelled by `extractor?`, `none`
when the table has no entry) and `all_data.extend(extractor(gw))`. -/
def incrementalBatch (extractor? : Option (Nat → List Dict))
    (last_watermark current_gameweek : Nat) : List Dict :=
  (requestedRange last_watermark current_gameweek).foldl
    (fun acc gw =>
      match extractor? with
      | some ex => acc ++ ex gw
      | none => acc) []

/-- Model of `extract_and_save_to_landing(table, load_type, current_gameweek)`.
Incremental: read the watermark, fetch `[w+1, current]` one gameweek at a
time into one batch; empty batch → return unchanged; else save the batch to
landing, recompute the latest finished gameweek (a second bootstrap fetch,
`events?`) and record it as the audit watermark.  Any other load type: run
the extractor for the current gameweek (no watermark read), save, and record
`current_gameweek` as the watermark; a missing extractor logs and returns. -/
def extract_and_save_to_landing (table lt : String) (current_gameweek : Nat)
    (extractor? : Option (Nat → List Dict)) (events? : Option (List Event))
    (today : String) (s : RunState) : RunState :=
  if strToLower lt == "incremental" then
    let last_watermark := get_latest_watermark (some s.ledger) table
    let all_data := incrementalBatch extractor? last_watermark current_gameweek
    if all_data.isEmpty then s
    else
      let s1 := save_to_landing table all_data today s
      let latest_finished_gw := get_latest_finished_gameweek events?
      write_audit_log table lt all_data.length latest_finished_gw s1
  else
    match extractor? with
    | none => s
    | some extractor =>
      let data := extractor current_gameweek
      let s1 := save_to_landing table data today s
      write_audit_log table lt data.length current_gameweek s1

/-- One iteration of `pipeline.py`'s per-table loop for an active row:
`move_existing_files_to_archive(table)` then
`extract_and_save_to_landing(table, load_type, current_gw)`. -/
def processTable (table lt : String) (current_gameweek : Nat)
    (extractor? : Option (Nat → List Dict)) (events? : Option (List Event))
    (today : String) (s : RunState) : RunState :=
  extract_and_save_to_landing table lt current_gameweek extractor? events?
    today (move_existing_files_to_archive table s)

/-- The per-element body of `extract_gameweek_live`'s loop:
`element["gameweek"] = gameweek`, then if `"stats" in element`, merge every
`stats` item onto the top level and `del element["stats"]`.  `none` models the
`TypeError` Python raises when a present `stats` value is not a dict (caught
by the orchestrator's blanket `except`, failing that table's run). -/
def flattenLiveElement (gameweek : Nat) (element : Dict) : Option Dict :=
  match dictGet? (dictSet element "gameweek" (JVal.int gameweek)) "stats" with
  | none => some (dictSet element "gameweek" (JVal.int gameweek))
  | some (JVal.obj stats) =>
    some (dictDel
      (stats.foldl (fun el kv => dictSet el kv.1 kv.2)
        (dictSet element "gameweek" (JVal.int gameweek))) "stats")
  | some _ => none

/-- The loop of `extract_gameweek_live` over all elements, propagating a
raised exception as `none`. -/
def flattenAll (gameweek : Nat) : List Dict → Option (List Dict)
  | [] => some []
  | e :: es =>
    match flattenLiveElement gameweek e with
    | none => none
    | some r =>
      match flattenAll gameweek es with
      | none => none
      | some rs => some (r :: rs)

/-- Model of `extract_gameweek_live(gameweek)`: on a failed or falsy response
(`elements? = none`, covering `call_fpl_api` returning `None` and a falsy
payload) return `[]`; else stamp and flatten every element of
`data.get("elements", [])` (passed in decoded as `elements?`). -/
def extract_gameweek_live (elements? : Option (List Dict)) (gameweek : Nat) :
    Option (List Dict) :=
  match elements? with
  | none => some []
  | some elements => flattenAll gameweek elements

/-- An extractor returning one record per requested gameweek (a minimal
stand-in for `EXTRACTION_MAP["gameweek_live"]` with live data available for
every gameweek). -/
def c3Extractor : Nat → List Dict := fun gw => [[("gameweek", JVal.int gw)]]

/-- Upstream gameweek metadata: gameweek 1 finished and data-checked,
gameweek 2 current, in progress, not finalized. -/
def c3Events : List Event := [⟨1, false, true, true⟩, ⟨2, true, false, false⟩]

/-- One incremental planner run for `gameweek_live` against that upstream
state (`current_gameweek = 2`, latest finished gameweek = 1). -/
def c3Run (s : RunState) : RunState :=
  extract_and_save_to_landing "gameweek_live" "incremental" 2
    (some c3Extractor) (some c3Events) "01012025" s

/-- Upstream gameweek metadata for the finalization-guard example: gameweeks
1–4 finished and data-checked, gameweek 5 current, fetched, but with
`data_checked = false`. -/
def c2Events : List Event :=
  [⟨1, false, true, true⟩, ⟨2, false, true, true⟩, ⟨3, false, true, true⟩,
   ⟨4, false, true, true⟩, ⟨5, true, true, false⟩]

/-- An audit history whose recorded watermarks are 9 then 10, as
`write_audit_log` stores them. -/
def c9Ledger : List AuditEntry :=
  [mkAuditEntry "gameweek_live" "incremental" 3 9,
   mkAuditEntry "gameweek_live" "incremental" 4 10]

/-- An audit history whose recorded watermarks are 9, 10 and 95, as
`write_audit_log` stores them. -/
def c10Ledger : List AuditEntry :=
  [mkAuditEntry "gameweek_live" "incremental" 1 9,
   mkAuditEntry "gameweek_live" "incremental" 2 10,
   mkAuditEntry "gameweek_live" "incremental" 3 95]

/-- The live element of the flattening example: a record with a nested
`stats` dict `{minutes: 90, goals_scored: 1}`. -/
def c7Element : Dict :=
  [("id", JVal.int 1),
   ("stats", JVal.obj [("minutes", JVal.int 90), ("goals_scored", JVal.int 1)])]

/-! ## Helper lemmas -/

theorem natDigitsRevFuel_congr :
    ∀ f₁ f₂ n : Nat, n ≤ f₁ → n ≤ f₂ →
      natDigitsRevFuel f₁ n = natDigitsRevFuel f₂ n := by
  intro f₁
  induction f₁ using Nat.strong_induction_on with
  | _ f₁ ih =>
    intro f₂ n h1 h2
    match f₁, f₂ with
    | 0, 0 => rfl
    | 0, f₂ + 1 =>
      have : n = 0 := by omega
      simp [natDigitsRevFuel, this]
    | f₁ + 1, 0 =>
      have : n = 0 := by omega
      simp [natDigitsRevFuel, this]
    | f₁ + 1, f₂ + 1 =>
      simp only [natDigitsRevFuel]
      by_cases h : n < 10
      · simp [h]
      · simp only [h, if_false]
        have hd : n / 10 ≤ f₁ := by omega
        have hd2 : n / 10 ≤ f₂ := by
          have := Nat.div_le_self n 10
          omega
        rw [ih f₁ (by omega) f₂ (n / 10) hd hd2]

theorem natDigitsRev_eq (n : Nat) :
    natDigitsRev n =
      if n < 10 then [decDigitChar n]
      else decDigitChar (n % 10) :: natDigitsRev (n / 10) := by
  unfold natDigitsRev
  by_cases h : n < 10
  · match n, h with
    | 0, _ => simp [natDigitsRevFuel, h]
    | n + 1, h => simp [natDigitsRevFuel, h]
  · have hn : 10 ≤ n := by omega
    match n, hn with
    | n + 10, _ =>
      simp only [natDigitsRevFuel, h, if_false]
      congr 1
      exact natDigitsRevFuel_congr (n + 9) ((n + 10) / 10) ((n + 10) / 10)
        (by omega) le_rfl

theorem decDigitChar_toNat {m : Nat} (h : m < 10) :
    (decDigitChar m).toNat = 48 + m := by
  interval_cases m <;> decide

theorem natDigitsRev_ne_nil (n : Nat) : natDigitsRev n ≠ [] := by
  rw [natDigitsRev_eq]
  by_cases h : n < 10 <;> simp [h]

theorem natDigitsRev_digits :
    ∀ n : Nat, ∀ c ∈ natDigitsRev n, 48 ≤ c.toNat ∧ c.toNat ≤ 57 := by
  intro n
  induction n using Nat.strong_induction_on with
  | _ n ih =>
    intro c hc
    rw [natDigitsRev_eq] at hc
    by_cases h : n < 10
    · simp only [h, if_true, List.mem_singleton] at hc
      subst hc
      rw [decDigitChar_toNat h]
      omega
    · simp only [h, if_false, List.mem_cons] at hc
      rcases hc with hc | hc
      · subst hc
        rw [decDigitChar_toNat (Nat.mod_lt _ (by omega))]
        omega
      · exact ih (n / 10) (Nat.div_lt_self (by omega) (by omega)) c hc

theorem natDigitsRev_foldl (n : Nat) :
    ((natDigitsRev n).reverse).foldl
      (fun a c => a * 10 + (c.toNat - 48)) 0 = n := by
  induction n using Nat.strong_induction_on with
  | _ n ih =>
    rw [natDigitsRev_eq]
    by_cases h : n < 10
    · simp only [h, if_true, List.reverse_singleton, List.foldl_cons,
        List.foldl_nil]
      rw [decDigitChar_toNat h]
      omega
    · simp only [h, if_false, List.reverse_cons, List.foldl_append,
        List.foldl_cons, List.foldl_nil]
      rw [ih (n / 10) (Nat.div_lt_self (by omega) (by omega))]
      rw [decDigitChar_toNat (Nat.mod_lt _ (by omega))]
      omega

theorem decodeNat?_encodeNat (n : Nat) : decodeNat? (encodeNat n) = some n := by
  unfold decodeNat? encodeNat
  have hne : (natDigitsRev n).reverse ≠ [] := by
    simpa using natDigitsRev_ne_nil n
  have hdig : ((natDigitsRev n).reverse).all
      (fun c => 48 ≤ c.toNat && c.toNat ≤ 57) = true := by
    rw [List.all_eq_true]
    intro c hc
    rw [List.mem_reverse] at hc
    have := natDigitsRev_digits n c hc
    simp only [Bool.and_eq_true, decide_eq_true_eq]
    omega
  simp only [List.isEmpty_iff, hne, if_false, hdig, if_true,
    natDigitsRev_foldl]

theorem charListLe_refl : ∀ l : List Char, charListLe l l = true := by
  intro l
  induction l with
  | nil => rfl
  | cons c cs ih => simp [charListLe, ih]

theorem charListLe_total :
    ∀ a b : List Char, charListLe a b = true ∨ charListLe b a = true := by
  intro a
  induction a with
  | nil => intro b; left; rfl
  | cons x xs ih =>
    intro b
    cases b with
    | nil => right; rfl
    | cons y ys =>
      simp only [charListLe]
      rcases Nat.lt_trichotomy x.toNat y.toNat with h | h | h
      · left; simp [h]
      · have h2 : ¬ x.toNat < y.toNat := by omega
        have h3 : ¬ y.toNat < x.toNat := by omega
        simpa [h2, h3] using ih ys
      · right; simp [h]

theorem charListLe_trans :
    ∀ a b c : List Char, charListLe a b = true → charListLe b c = true →
      charListLe a c = true := by
  intro a
  induction a with
  | nil => intro b c _ _; rfl
  | cons x xs ih =>
    intro b c hab hbc
    cases b with
    | nil => simp [charListLe] at hab
    | cons y ys =>
      cases c with
      | nil => simp [charListLe] at hbc
      | cons z zs =>
        simp only [charListLe] at hab hbc ⊢
        have hab2 : x.toNat < y.toNat ∨
            (x.toNat = y.toNat ∧ charListLe xs ys = true) := by
          rcases Nat.lt_trichotomy x.toNat y.toNat with h1 | h1 | h1
          · exact Or.inl h1
          · refine Or.inr ⟨h1, ?_⟩
            simpa [show ¬ x.toNat < y.toNat by omega,
              show ¬ y.toNat < x.toNat by omega] using hab
          · simp [show ¬ x.toNat < y.toNat by omega, h1] at hab
        have hbc2 : y.toNat < z.toNat ∨
            (y.toNat = z.toNat ∧ charListLe ys zs = true) := by
          rcases Nat.lt_trichotomy y.toNat z.toNat with h1 | h1 | h1
          · exact Or.inl h1
          · refine Or.inr ⟨h1, ?_⟩
            simpa [show ¬ y.toNat < z.toNat by omega,
              show ¬ z.toNat < y.toNat by omega] using hbc
          · simp [show ¬ y.toNat < z.toNat by omega, h1] at hbc
        rcases hab2 with h1 | ⟨h1, h1c⟩ <;> rcases hbc2 with h2 | ⟨h2, h2c⟩
        · simp [show x.toNat < z.toNat by omega]
        · simp [show x.toNat < z.toNat by omega]
        · simp [show x.toNat < z.toNat by omega]
        · simp [show ¬ x.toNat < z.toNat by omega,
            show ¬ z.toNat < x.toNat by omega, ih ys zs h1c h2c]

theorem sqlMax_append_single (l : List String) (x : String) :
    sqlMax (l ++ [x]) =
      match sqlMax l with
      | none => some x
      | some m => some (if charListLe m.data x.data then x else m) := by
  unfold sqlMax
  rw [List.foldl_append, List.foldl_cons, List.foldl_nil]

theorem sqlMax_foldl_some (l : List String) (a : String) :
    l.foldl (fun acc s =>
        match acc with
        | none => some s
        | some m => some (if charListLe m.data s.data then s else m)) (some a)
      = some (l.foldl
          (fun m s => if charListLe m.data s.data then s else m) a) := by
  induction l generalizing a with
  | nil => rfl
  | cons x xs ih =>
    simp only [List.foldl_cons]
    exact ih _

theorem foldl_lexMax_mem (l : List String) (a : String) :
    l.foldl (fun m s => if charListLe m.data s.data then s else m) a
      ∈ a :: l := by
  induction l generalizing a with
  | nil => simp
  | cons x xs ih =>
    simp only [List.foldl_cons]
    by_cases hc : charListLe a.data x.data
    · simp only [hc, if_true]
      rcases List.mem_cons.mp (ih x) with h | h
      · simp [h]
      · exact List.mem_cons_of_mem _ (List.mem_cons_of_mem _ h)
    · simp only [hc, if_false]
      rcases List.mem_cons.mp (ih a) with h | h
      · simp [h]
      · exact List.mem_cons_of_mem _ (List.mem_cons_of_mem _ h)

theorem foldl_lexMax_ub (l : List String) (a : String) :
    ∀ x ∈ a :: l,
      charListLe x.data
        (l.foldl (fun m s => if charListLe m.data s.data then s else m) a).data
        = true := by
  induction l generalizing a with
  | nil =>
    intro x hx
    rcases List.mem_cons.mp hx with h | h
    · subst h; exact charListLe_refl _
    · simp at h
  | cons y ys ih =>
    intro x hx
    simp only [List.foldl_cons]
    have hstep : charListLe a.data
        ((if charListLe a.data y.data then y else a)).data = true ∧
        charListLe y.data
        ((if charListLe a.data y.data then y else a)).data = true := by
      by_cases hc : charListLe a.data y.data
      · rw [if_pos hc]
        exact ⟨hc, charListLe_refl _⟩
      · rw [if_neg hc]
        refine ⟨charListLe_refl _, ?_⟩
        rcases charListLe_total y.data a.data with h | h
        · exact h
        · simp [h] at hc
    have hmaxle : charListLe
        ((if charListLe a.data y.data then y else a)).data
        (ys.foldl (fun m s => if charListLe m.data s.data then s else m)
          (if charListLe a.data y.data then y else a)).data = true :=
      ih _ _ (List.mem_cons_self _ _)
    rcases List.mem_cons.mp hx with h | h
    · subst h
      exact charListLe_trans _ _ _ hstep.1 hmaxle
    · rcases List.mem_cons.mp h with h2 | h2
      · subst h2
        exact charListLe_trans _ _ _ hstep.2 hmaxle
      · exact ih _ _ (List.mem_cons_of_mem _ h2)

theorem sqlMax_mem {l : List String} {m : String} (h : sqlMax l = some m) :
    m ∈ l := by
  cases l with
  | nil => simp [sqlMax] at h
  | cons a as =>
    unfold sqlMax at h
    rw [List.foldl_cons] at h
    rw [sqlMax_foldl_some] at h
    have h2 : as.foldl
        (fun m s => if charListLe m.data s.data then s else m) a = m :=
      Option.some_inj.mp h
    rw [← h2]
    exact foldl_lexMax_mem as a

theorem sqlMax_ub {l : List String} {m : String} (h : sqlMax l = some m) :
    ∀ x ∈ l, charListLe x.data m.data = true := by
  cases l with
  | nil => simp [sqlMax] at h
  | cons a as =>
    unfold sqlMax at h
    rw [List.foldl_cons] at h
    rw [sqlMax_foldl_some] at h
    have h2 : as.foldl
        (fun m s => if charListLe m.data s.data then s else m) a = m :=
      Option.some_inj.mp h
    intro x hx
    rw [← h2]
    exact foldl_lexMax_ub as a x hx

theorem watermarkStrings_append_entry (L : List AuditEntry) (e : AuditEntry)
    (t : String) :
    watermarkStrings (L ++ [e]) t =
      watermarkStrings L t ++
        (if e.tablename == t && e.data_source == DATA_SOURCE then
          e.load_watermark.toList else []) := by
  unfold watermarkStrings
  rw [List.filter_append, List.filterMap_append]
  congr 1
  rw [List.filter_cons, List.filter_nil]
  by_cases h : (e.tablename == t && e.data_source == DATA_SOURCE) = true
  · rw [if_pos h, if_pos h]
    cases hw : e.load_watermark <;> simp [List.filterMap_cons, hw]
  · rw [if_neg h, if_neg h]
    rfl

theorem get_latest_watermark_write_audit_ge (s : RunState) (t lt : String)
    (rc v : Nat) (hv : get_latest_watermark (some s.ledger) t ≤ v) :
    get_latest_watermark (some s.ledger) t ≤
      get_latest_watermark (some (write_audit_log t lt rc v s).ledger) t := by
  unfold write_audit_log mkAuditEntry
  unfold get_latest_watermark at hv ⊢
  dsimp only at hv ⊢
  rw [watermarkStrings_append_entry]
  simp only [beq_self_eq_true, Bool.and_self, if_pos]
  unfold encodeWatermark
  by_cases hz : v = 0
  · simp [hz]
  · rw [if_neg hz]
    simp only [Option.toList_some]
    rw [sqlMax_append_single]
    cases hm : sqlMax (watermarkStrings s.ledger t) with
    | none => simp
    | some m =>
      simp only []
      by_cases hc : charListLe m.data (encodeNat v).data
      · rw [if_pos hc]
        rw [hm] at hv
        simp only [decodeNat?_encodeNat, Option.getD_some]
        exact hv
      · rw [if_neg hc]

theorem mem_of_getLastEq {α : Type} {l : List α} {a : α}
    (h : l.getLast? = some a) : a ∈ l := by
  rw [List.getLast?_eq_head?_reverse] at h
  cases hr : l.reverse with
  | nil => rw [hr] at h; simp at h
  | cons b bs =>
    rw [hr] at h
    simp only [List.head?_cons, Option.some_inj] at h
    rw [← List.mem_reverse, hr, h]
    exact List.mem_cons_self _ _

theorem save_to_landing_ledger (table : String) (data : List Dict)
    (today : String) (s : RunState) :
    (save_to_landing table data today s).ledger = s.ledger := by
  unfold save_to_landing
  by_cases h : data.isEmpty <;> simp [h]

theorem write_audit_log_blobs (table lt : String) (rc v : Nat)
    (s : RunState) :
    (write_audit_log table lt rc v s).blobs = s.blobs := rfl

theorem run_incremental_empty (table lt : String) (current : Nat)
    (ex? : Option (Nat → List Dict)) (ev? : Option (List Event))
    (today : String) (s : RunState)
    (hlt : strToLower lt = "incremental")
    (hemp : (incrementalBatch ex?
      (get_latest_watermark (some s.ledger) table) current).isEmpty = true) :
    extract_and_save_to_landing table lt current ex? ev? today s = s := by
  unfold extract_and_save_to_landing
  rw [hlt]
  simp only [beq_self_eq_true, if_true, hemp, if_pos]

theorem run_incremental_nonempty (table lt : String) (current : Nat)
    (ex? : Option (Nat → List Dict)) (ev? : Option (List Event))
    (today : String) (s : RunState)
    (hlt : strToLower lt = "incremental")
    (hne : (incrementalBatch ex?
      (get_latest_watermark (some s.ledger) table) current).isEmpty = false) :
    extract_and_save_to_landing table lt current ex? ev? today s =
      write_audit_log table lt
        (incrementalBatch ex?
          (get_latest_watermark (some s.ledger) table) current).length
        (get_latest_finished_gameweek ev?)
        (save_to_landing table
          (incrementalBatch ex?
            (get_latest_watermark (some s.ledger) table) current) today s) := by
  unfold extract_and_save_to_landing
  rw [hlt]
  simp only [beq_self_eq_true, if_true, hne, Bool.false_eq_true, if_false]

theorem run_full_eq (table lt : String) (current : Nat)
    (ex : Nat → List Dict) (ev? : Option (List Event)) (today : String)
    (s : RunState) (hlt : (strToLower lt == "incremental") = false) :
    extract_and_save_to_landing table lt current (some ex) ev? today s =
      write_audit_log table lt (ex current).length current
        (save_to_landing table (ex current) today s) := by
  unfold extract_and_save_to_landing
  simp only [hlt, Bool.false_eq_true, if_false]

theorem incrementalBatch_foldl_acc (ex : Nat → List Dict) :
    ∀ (l : List Nat) (acc : List Dict),
      l.foldl (fun acc gw =>
        match (some ex : Option (Nat → List Dict)) with
        | some ex => acc ++ ex gw
        | none => acc) acc = acc ++ ((l.map ex).flatten) := by
  intro l
  induction l with
  | nil => intro acc; simp
  | cons x xs ih =>
    intro acc
    simp only [List.foldl_cons, List.map_cons, List.flatten_cons]
    rw [ih (acc ++ ex x)]
    rw [List.append_assoc]

theorem incrementalBatch_some (ex : Nat → List Dict) (w c : Nat) :
    incrementalBatch (some ex) w c = ((requestedRange w c).map ex).flatten := by
  unfold incrementalBatch
  rw [incrementalBatch_foldl_acc ex (requestedRange w c) []]
  simp

theorem incrementalBatch_none (w c : Nat) :
    incrementalBatch none w c = [] := by
  unfold incrementalBatch
  have h : ∀ (l : List Nat) (acc : List Dict),
      l.foldl (fun acc gw =>
        match (none : Option (Nat → List Dict)) with
        | some ex => acc ++ ex gw
        | none => acc) acc = acc := by
    intro l
    induction l with
    | nil => intro acc; rfl
    | cons y ys ih2 =>
      intro acc
      rw [List.foldl_cons]
      exact ih2 acc
  exact h _ []

theorem requestedRange_eq_nil_of_le (w c : Nat) (h : c ≤ w) :
    requestedRange w c = [] := by
  unfold requestedRange
  have : c - w = 0 := by omega
  rw [this]
  rfl

theorem latest_finished_le_of_unchecked (events : List Event)
    (hinj : ∀ a ∈ events, ∀ b ∈ events, a.id = b.id → a = b)
    (hmono : ∀ a ∈ events, ∀ b ∈ events, a.id < b.id →
      b.finished = true → b.data_checked = true →
      a.finished = true ∧ a.data_checked = true)
    (e5 : Event) (he5 : e5 ∈ events) (hid : e5.id = 5)
    (hdc : e5.data_checked = false) :
    get_latest_finished_gameweek (some events) ≤ 4 := by
  unfold get_latest_finished_gameweek
  dsimp only
  cases hl : (events.filter fun e => e.finished && e.data_checked).getLast? with
  | none => exact Nat.zero_le 4
  | some e =>
    have hmem := mem_of_getLastEq hl
    have hme : e ∈ events := List.mem_of_mem_filter hmem
    have hpe : (e.finished && e.data_checked) = true :=
      (List.mem_filter.mp hmem).2
    simp only [Bool.and_eq_true] at hpe
    show e.id ≤ 4
    by_contra hgt
    push_neg at hgt
    rcases Nat.lt_or_ge 5 e.id with h5 | h5
    · have hup := hmono e5 he5 e hme (by omega) hpe.1 hpe.2
      rw [hdc] at hup
      exact absurd hup.2 (by simp)
    · have heq : e = e5 := hinj e hme e5 he5 (by omega)
      rw [heq, hdc] at hpe
      exact absurd hpe.2 (by simp)

theorem incrementalBatch_empty_of_le (ex? : Option (Nat → List Dict))
    (w c : Nat) (h : c ≤ w) : incrementalBatch ex? w c = [] := by
  cases ex? with
  | none => exact incrementalBatch_none w c
  | some ex =>
    rw [incrementalBatch_some, requestedRange_eq_nil_of_le w c h]
    rfl

/-! ## Claim theorems -/

/-- C1: for every incremental-strategy dataset, the planner requests exactly
the sequence numbers in the inclusive range `[w+1, current]`, one at a time
in strictly increasing order, concatenated into one batch; `w = 3, c = 5`
yields exactly `[4, 5]`, `w = 5, c = 5` yields the empty range, and whenever
the current sequence does not exceed the stored watermark the whole run is a
no-op. -/
theorem C1_incremental_request_range :
    (∀ w c n : Nat, n ∈ requestedRange w c ↔ (w + 1 ≤ n ∧ n ≤ c)) ∧
    (∀ w c : Nat, List.Chain' (· < ·) (requestedRange w c)) ∧
    (∀ (w c : Nat) (ex : Nat → List Dict),
      incrementalBatch (some ex) w c = ((requestedRange w c).map ex).flatten) ∧
    requestedRange 3 5 = [4, 5] ∧
    requestedRange 5 5 = [] ∧
    (∀ (table lt : String) (current : Nat) (ex? : Option (Nat → List Dict))
      (ev? : Option (List Event)) (today : String) (s : RunState),
      strToLower lt = "incremental" →
      current ≤ get_latest_watermark (some s.ledger) table →
      extract_and_save_to_landing table lt current ex? ev? today s = s) := by
  refine ⟨?_, ?_, ?_, ?_, ?_, ?_⟩
  · intro w c n
    unfold requestedRange
    rw [List.mem_range'_1]
    omega
  · intro w c
    unfold requestedRange
    rw [List.chain'_iff_pairwise]
    exact List.pairwise_lt_range' _ _
  · intro w c ex
    exact incrementalBatch_some ex w c
  · decide
  · decide
  · intro table lt current ex? ev? today s hlt hle
    apply run_incremental_empty table lt current ex? ev? today s hlt
    rw [incrementalBatch_empty_of_le ex? _ current hle]
    rfl

/-- C5: for every incremental-strategy dataset, if the concatenated batch
over the requested range is empty, the run is a no-op: no landing write, no
audit entry, the watermark read is unchanged; and an empty batch means every
per-sequence fetch in the (possibly empty) range returned nothing. -/
theorem C5_empty_batch_noop (table lt : String) (current : Nat)
    (ex? : Option (Nat → List Dict)) (ev? : Option (List Event))
    (today : String) (s : RunState)
    (hlt : strToLower lt = "incremental")
    (hemp : (incrementalBatch ex?
      (get_latest_watermark (some s.ledger) table) current).isEmpty = true) :
    extract_and_save_to_landing table lt current ex? ev? today s = s ∧
    (extract_and_save_to_landing table lt current ex? ev? today s).blobs
      = s.blobs ∧
    (extract_and_save_to_landing table lt current ex? ev? today s).ledger
      = s.ledger ∧
    get_latest_watermark
      (some (extract_and_save_to_landing table lt current ex? ev? today
        s).ledger) table
      = get_latest_watermark (some s.ledger) table ∧
    (∀ ex : Nat → List Dict, ex? = some ex →
      (requestedRange (get_latest_watermark (some s.ledger) table) current
        = [] ∨
      ∀ gw ∈ requestedRange (get_latest_watermark (some s.ledger) table)
        current, ex gw = [])) := by
  have hrun := run_incremental_empty table lt current ex? ev? today s hlt hemp
  refine ⟨hrun, by rw [hrun], by rw [hrun], by rw [hrun], ?_⟩
  intro ex hex
  right
  intro gw hgw
  rw [hex] at hemp
  rw [List.isEmpty_iff, incrementalBatch_some, List.flatten_eq_nil_iff]
    at hemp
  exact hemp (ex gw) (List.mem_map.mpr ⟨gw, hgw, rfl⟩)

/-- Witness for C5: an extractor that returns nothing for every gameweek on
an empty state produces a no-op run. -/
theorem C5_empty_batch_noop_witness :
    strToLower "incremental" = "incremental" ∧
    (incrementalBatch (some (fun _ => ([] : List Dict)))
      (get_latest_watermark
        (some (RunState.mk [] []).ledger) "gameweek_live") 3).isEmpty
      = true ∧
    extract_and_save_to_landing "gameweek_live" "incremental" 3
      (some (fun _ => ([] : List Dict))) (some c3Events) "01012025"
      ⟨[], []⟩ = ⟨[], []⟩ :=
  ⟨rfl, by decide,
    (C5_empty_batch_noop "gameweek_live" "incremental" 3
      (some (fun _ => ([] : List Dict))) (some c3Events) "01012025"
      ⟨[], []⟩ rfl (by decide)).1⟩

/-- C2: for every incremental-strategy dataset whose fetched batch is
non-empty, the audit entry appended by the run records the recomputed latest
finished-and-data-checked gameweek as the watermark (not
`current_gameweek`); and whenever gameweek 5 is present but not
data-checked — with distinct event ids and finalization closed downward —
that recorded value is at most 4. -/
theorem C2_watermark_is_latest_finished (table lt : String) (current : Nat)
    (ex? : Option (Nat → List Dict)) (events? : Option (List Event))
    (today : String) (s : RunState)
    (hlt : strToLower lt = "incremental")
    (hne : (incrementalBatch ex?
      (get_latest_watermark (some s.ledger) table) current).isEmpty
      = false) :
    (extract_and_save_to_landing table lt current ex? events? today s).ledger
      = s.ledger ++ [mkAuditEntry table lt
          (incrementalBatch ex?
            (get_latest_watermark (some s.ledger) table) current).length
          (get_latest_finished_gameweek events?)] ∧
    (∀ events : List Event, events? = some events →
      (∀ a ∈ events, ∀ b ∈ events, a.id = b.id → a = b) →
      (∀ a ∈ events, ∀ b ∈ events, a.id < b.id →
        b.finished = true → b.data_checked = true →
        a.finished = true ∧ a.data_checked = true) →
      ∀ e5 ∈ events, e5.id = 5 → e5.data_checked = false →
      get_latest_finished_gameweek events? ≤ 4) := by
  constructor
  · rw [run_incremental_nonempty table lt current ex? events? today s hlt hne]
    show (write_audit_log _ _ _ _ _).ledger = _
    unfold write_audit_log
    dsimp only
    rw [save_to_landing_ledger]
  · intro events hev hinj hmono e5 he5 hid hdc
    rw [hev]
    exact latest_finished_le_of_unchecked events hinj hmono e5 he5 hid hdc

/-- Witness for C2 at a concrete input: gameweeks 1–5 requested, gameweek 5
fetched but unchecked, recorded watermark 4. -/
theorem C2_watermark_is_latest_finished_witness :
    strToLower "incremental" = "incremental" ∧
    (incrementalBatch (some c3Extractor)
      (get_latest_watermark (some ([] : List AuditEntry)) "gameweek_live")
      5).isEmpty = false ∧
    (extract_and_save_to_landing "gameweek_live" "incremental" 5
        (some c3Extractor) (some c2Events) "01012025" ⟨[], []⟩).ledger
      = [] ++ [mkAuditEntry "gameweek_live" "incremental"
          (incrementalBatch (some c3Extractor)
            (get_latest_watermark (some ([] : List AuditEntry))
              "gameweek_live") 5).length
          (get_latest_finished_gameweek (some c2Events))] ∧
    get_latest_finished_gameweek (some c2Events) ≤ 4 :=
  ⟨rfl, by decide,
    (C2_watermark_is_latest_finished "gameweek_live" "incremental" 5
      (some c3Extractor) (some c2Events) "01012025" ⟨[], []⟩ rfl
      (by decide)).1,
    (C2_watermark_is_latest_finished "gameweek_live" "incremental" 5
      (some c3Extractor) (some c2Events) "01012025" ⟨[], []⟩ rfl
      (by decide)).2 c2Events rfl (by decide) (by decide)
      ⟨5, true, true, false⟩ (by decide) rfl rfl⟩

/-- C3 counterexample: with gameweek 1 finalized and gameweek 2 in progress
with live data, a second planner run on the unchanged upstream state is not
a no-op — it re-fetches gameweek 2 and writes the landing object again (the
re-written object now holds 1 record instead of 2, and a second audit entry
is appended), refuting the claimed idempotence. -/
theorem C3_second_run_not_noop_counterexample :
    (c3Run (c3Run ⟨[], []⟩)).blobs ≠ (c3Run ⟨[], []⟩).blobs ∧
    c3Run (c3Run ⟨[], []⟩) ≠ c3Run ⟨[], []⟩ := by
  have hb : (c3Run (c3Run ⟨[], []⟩)).blobs ≠ (c3Run ⟨[], []⟩).blobs := by
    intro h
    have h1 : ((c3Run (c3Run ⟨[], []⟩)).blobs.map (fun b => b.2.length))
        = [1] := rfl
    rw [h] at h1
    have h2 : ((c3Run ⟨[], []⟩).blobs.map (fun b => b.2.length)) = [2] := rfl
    rw [h2] at h1
    exact absurd h1 (by decide)
  exact ⟨hb, fun h => hb (congrArg RunState.blobs h)⟩

/-- C3 amended: a second incremental run on the same upstream state is a
no-op exactly when the batch it would re-fetch — over the range starting
after the watermark read back from the post-first-run ledger — is empty; in
general the code deliberately re-fetches not-yet-finalized gameweeks, so the
second run writes again whenever they still have data. -/
theorem C3_second_run_noop_iff (table lt : String) (current : Nat)
    (ex? : Option (Nat → List Dict)) (ev? : Option (List Event))
    (today : String) (s : RunState)
    (hlt : strToLower lt = "incremental") :
    (extract_and_save_to_landing table lt current ex? ev? today
        (extract_and_save_to_landing table lt current ex? ev? today s)
      = extract_and_save_to_landing table lt current ex? ev? today s)
    ↔ (incrementalBatch ex?
        (get_latest_watermark
          (some (extract_and_save_to_landing table lt current ex? ev? today
            s).ledger) table) current).isEmpty = true := by
  constructor
  · intro h
    cases hb : (incrementalBatch ex?
        (get_latest_watermark
          (some (extract_and_save_to_landing table lt current ex? ev? today
            s).ledger) table) current).isEmpty with
    | true => rfl
    | false =>
      exfalso
      have heq := run_incremental_nonempty table lt current ex? ev? today
        (extract_and_save_to_landing table lt current ex? ev? today s)
        hlt hb
      have hlen : (extract_and_save_to_landing table lt current ex? ev? today
          (extract_and_save_to_landing table lt current ex? ev? today
            s)).ledger.length
          = (extract_and_save_to_landing table lt current ex? ev? today
              s).ledger.length + 1 := by
        rw [heq]
        unfold write_audit_log
        dsimp only
        rw [List.length_append, save_to_landing_ledger]
        rfl
      rw [h] at hlen
      omega
  · intro hemp
    exact run_incremental_empty table lt current ex? ev? today
      (extract_and_save_to_landing table lt current ex? ev? today s)
      hlt hemp

/-- Witness for the amended C3: with an extractor that finds no data the
second run (indeed every run) is a no-op. -/
theorem C3_second_run_noop_iff_witness :
    strToLower "incremental" = "incremental" ∧
    ((extract_and_save_to_landing "gameweek_live" "incremental" 2
        (some (fun _ => ([] : List Dict))) (some c3Events) "01012025"
        (extract_and_save_to_landing "gameweek_live" "incremental" 2
          (some (fun _ => ([] : List Dict))) (some c3Events) "01012025"
          ⟨[], []⟩)
      = extract_and_save_to_landing "gameweek_live" "incremental" 2
          (some (fun _ => ([] : List Dict))) (some c3Events) "01012025"
          ⟨[], []⟩)
    ↔ (incrementalBatch (some (fun _ => ([] : List Dict)))
        (get_latest_watermark
          (some (extract_and_save_to_landing "gameweek_live" "incremental" 2
            (some (fun _ => ([] : List Dict))) (some c3Events) "01012025"
            ⟨[], []⟩).ledger) "gameweek_live") 2).isEmpty = true) :=
  ⟨rfl, C3_second_run_noop_iff "gameweek_live" "incremental" 2
    (some (fun _ => ([] : List Dict))) (some c3Events) "01012025"
    ⟨[], []⟩ rfl⟩

/-- C4: for every incremental-strategy dataset, under the system invariant
that the stored watermark never exceeds the latest finished gameweek, the
watermark read back after a successful run is at least the watermark read
before it (so it never decreases across a sequence of such runs). -/
theorem C4_watermark_monotone (table lt : String) (current : Nat)
    (ex? : Option (Nat → List Dict)) (ev? : Option (List Event))
    (today : String) (s : RunState)
    (hlt : strToLower lt = "incremental")
    (hinv : get_latest_watermark (some s.ledger) table ≤
      get_latest_finished_gameweek ev?) :
    get_latest_watermark (some s.ledger) table ≤
      get_latest_watermark
        (some (extract_and_save_to_landing table lt current ex? ev? today
          s).ledger) table := by
  cases hb : (incrementalBatch ex?
      (get_latest_watermark (some s.ledger) table) current).isEmpty with
  | true =>
    rw [run_incremental_empty table lt current ex? ev? today s hlt hb]
  | false =>
    rw [run_incremental_nonempty table lt current ex? ev? today s hlt hb]
    have hsl : (save_to_landing table
        (incrementalBatch ex?
          (get_latest_watermark (some s.ledger) table) current) today
        s).ledger = s.ledger := save_to_landing_ledger _ _ _ _
    have hge := get_latest_watermark_write_audit_ge
      (save_to_landing table
        (incrementalBatch ex?
          (get_latest_watermark (some s.ledger) table) current) today s)
      table lt
      (incrementalBatch ex?
        (get_latest_watermark (some s.ledger) table) current).length
      (get_latest_finished_gameweek ev?)
      (by rw [hsl]; exact hinv)
    rw [hsl] at hge
    exact hge

/-- Witness for C4 at a concrete input. -/
theorem C4_watermark_monotone_witness :
    strToLower "incremental" = "incremental" ∧
    get_latest_watermark (some (RunState.mk [] []).ledger) "gameweek_live"
      ≤ get_latest_finished_gameweek (some c3Events) ∧
    get_latest_watermark (some (RunState.mk [] []).ledger) "gameweek_live"
      ≤ get_latest_watermark
          (some (extract_and_save_to_landing "gameweek_live" "incremental" 2
            (some c3Extractor) (some c3Events) "01012025"
            ⟨[], []⟩).ledger) "gameweek_live" :=
  ⟨rfl, by decide,
    C4_watermark_monotone "gameweek_live" "incremental" 2 (some c3Extractor)
      (some c3Events) "01012025" ⟨[], []⟩ rfl (by decide)⟩

/-- C6: a `full`-load run writes every record the extractor returns as the
new landing object (consulting no stored watermark: the outcome is the same
for any audit-ledger contents), appends an audit entry whose recorded
watermark is `current_gameweek` itself — stored as its numeral, independent
of any finalization state (`ev?` plays no role). -/
theorem C6_full_load_snapshot (table : String) (current : Nat)
    (ex : Nat → List Dict) (ev? : Option (List Event)) (today : String)
    (s : RunState) (hcur : 1 ≤ current) :
    ((ex current).isEmpty = false →
      (extract_and_save_to_landing table "full" current (some ex) ev? today
        s).blobs
        = uploadBlob s.blobs (landingPathFor table today) (ex current)) ∧
    ((ex current).isEmpty = true →
      (extract_and_save_to_landing table "full" current (some ex) ev? today
        s).blobs = s.blobs) ∧
    (extract_and_save_to_landing table "full" current (some ex) ev? today
        s).ledger
      = s.ledger ++ [mkAuditEntry table "full" (ex current).length current] ∧
    (mkAuditEntry table "full" (ex current).length current).load_watermark
      = some (encodeNat current) ∧
    (∀ L2 : List AuditEntry,
      (extract_and_save_to_landing table "full" current (some ex) ev? today
        ⟨s.blobs, L2⟩).blobs
      = (extract_and_save_to_landing table "full" current (some ex) ev? today
          s).blobs) ∧
    (∀ ev2 : Option (List Event),
      extract_and_save_to_landing table "full" current (some ex) ev2 today s
        = extract_and_save_to_landing table "full" current (some ex) ev?
            today s) := by
  have hfull : (strToLower "full" == "incremental") = false := by decide
  have heq := run_full_eq table "full" current ex ev? today s hfull
  refine ⟨?_, ?_, ?_, ?_, ?_, ?_⟩
  · intro h
    rw [heq, write_audit_log_blobs]
    unfold save_to_landing
    rw [h]
    simp only [Bool.false_eq_true, if_false]
  · intro h
    rw [heq, write_audit_log_blobs]
    unfold save_to_landing
    rw [h]
    simp only [if_true]
  · rw [heq]
    unfold write_audit_log
    dsimp only
    rw [save_to_landing_ledger]
  · show encodeWatermark current = some (encodeNat current)
    unfold encodeWatermark
    rw [if_neg (by omega)]
  · intro L2
    rw [heq, run_full_eq table "full" current ex ev? today ⟨s.blobs, L2⟩
      hfull, write_audit_log_blobs, write_audit_log_blobs]
    unfold save_to_landing
    by_cases h : (ex current).isEmpty <;> simp [h]
  · intro ev2
    rw [heq, run_full_eq table "full" current ex ev2 today s hfull]

/-- Witness for C6 at a concrete input. -/
theorem C6_full_load_snapshot_witness :
    1 ≤ 1 ∧
    (extract_and_save_to_landing "teams" "full" 1
        (some (fun _ => [[("id", JVal.int 1)]])) (some c3Events) "01012025"
        ⟨[], []⟩).ledger
      = [] ++ [mkAuditEntry "teams" "full" 1 1] :=
  ⟨by omega,
    (C6_full_load_snapshot "teams" 1 (fun _ => [[("id", JVal.int 1)]])
      (some c3Events) "01012025" ⟨[], []⟩ (by omega)).2.2.1⟩

theorem find?_map_set_same (k : String) (v : JVal) :
    ∀ d : Dict, d.any (fun p => p.1 == k) = true →
      (d.map (fun p => if p.1 == k then (k, v) else p)).find?
        (fun p => p.1 == k) = some (k, v) := by
  intro d
  induction d with
  | nil => intro h; simp at h
  | cons p ps ih =>
    intro h
    rw [List.map_cons]
    by_cases hp : (p.1 == k) = true
    · rw [if_pos hp]
      simp only [List.find?_cons, beq_self_eq_true]
    · rw [if_neg hp]
      rw [Bool.not_eq_true] at hp
      simp only [List.find?_cons, hp]
      rw [List.any_cons] at h
      simp only [hp, Bool.false_or] at h
      exact ih h

theorem find?_append_set_same (k : String) (v : JVal) :
    ∀ d : Dict, d.any (fun p => p.1 == k) = false →
      (d ++ [(k, v)]).find? (fun p => p.1 == k) = some (k, v) := by
  intro d
  induction d with
  | nil =>
    intro _
    simp only [List.nil_append, List.find?_cons, beq_self_eq_true]
  | cons p ps ih =>
    intro h
    rw [List.any_cons] at h
    simp only [Bool.or_eq_false_iff] at h
    rw [List.cons_append]
    simp only [List.find?_cons, h.1]
    exact ih h.2

theorem dictGet?_dictSet_same (d : Dict) (k : String) (v : JVal) :
    dictGet? (dictSet d k v) k = some v := by
  unfold dictGet? dictSet
  by_cases h : d.any (fun p => p.1 == k) = true
  · rw [if_pos h, find?_map_set_same k v d h]
    rfl
  · rw [if_neg h, find?_append_set_same k v d
      (by rwa [Bool.not_eq_true] at h)]
    rfl

theorem dictGet?_dictSet_other (d : Dict) (k k2 : String) (v : JVal)
    (hne : k2 ≠ k) : dictGet? (dictSet d k v) k2 = dictGet? d k2 := by
  have hkk2 : (k == k2) = false := beq_eq_false_iff_ne.mpr (Ne.symm hne)
  unfold dictGet? dictSet
  by_cases h : d.any (fun p => p.1 == k) = true
  · rw [if_pos h]
    congr 1
    clear h
    induction d with
    | nil => rfl
    | cons p ps ih =>
      rw [List.map_cons]
      by_cases hp : (p.1 == k) = true
      · rw [if_pos hp]
        have hp2 : (p.1 == k2) = false := by
          rw [beq_iff_eq] at hp
          rw [hp]
          exact hkk2
        simp only [List.find?_cons, hkk2, hp2]
        exact ih
      · rw [if_neg hp]
        by_cases hl : (p.1 == k2) = true
        · simp only [List.find?_cons, hl]
        · rw [Bool.not_eq_true] at hl
          simp only [List.find?_cons, hl]
          exact ih
  · rw [if_neg h]
    congr 1
    clear h
    induction d with
    | nil =>
      rw [List.nil_append]
      simp only [List.find?_cons, hkk2, List.find?_nil]
    | cons p ps ih =>
      rw [List.cons_append]
      by_cases hl : (p.1 == k2) = true
      · simp only [List.find?_cons, hl]
      · rw [Bool.not_eq_true] at hl
        simp only [List.find?_cons, hl]
        exact ih

theorem dictGet?_dictDel_same (d : Dict) (k : String) :
    dictGet? (dictDel d k) k = none := by
  unfold dictGet? dictDel
  induction d with
  | nil => rfl
  | cons p ps ih =>
    rw [List.filter_cons]
    by_cases hp : (p.1 != k) = true
    · rw [if_pos hp]
      have hp2 : (p.1 == k) = false :=
        beq_eq_false_iff_ne.mpr (bne_iff_ne.mp hp)
      simp only [List.find?_cons, hp2]
      exact ih
    · rw [if_neg hp]
      exact ih

theorem dictGet?_dictDel_other (d : Dict) (k k2 : String) (hne : k2 ≠ k) :
    dictGet? (dictDel d k) k2 = dictGet? d k2 := by
  unfold dictGet? dictDel
  congr 1
  induction d with
  | nil => rfl
  | cons p ps ih =>
    rw [List.filter_cons]
    by_cases hp : (p.1 != k) = true
    · rw [if_pos hp]
      by_cases hl : (p.1 == k2) = true
      · simp only [List.find?_cons, hl]
      · rw [Bool.not_eq_true] at hl
        simp only [List.find?_cons, hl]
        exact ih
    · rw [if_neg hp]
      have hpk : p.1 = k := by
        simpa [bne_iff_ne] using hp
      have hp2 : (p.1 == k2) = false := by
        rw [hpk]
        exact beq_eq_false_iff_ne.mpr (Ne.symm hne)
      simp only [List.find?_cons, hp2]
      exact ih

theorem dictGet?_foldSet_notmem (k : String) :
    ∀ (st : List (String × JVal)) (d : Dict), k ∉ st.map (fun p => p.1) →
      dictGet? (st.foldl (fun el kv => dictSet el kv.1 kv.2) d) k
        = dictGet? d k := by
  intro st
  induction st with
  | nil => intro d _; rfl
  | cons kv rest ih =>
    intro d hk
    rw [List.map_cons, List.mem_cons] at hk
    push_neg at hk
    rw [List.foldl_cons]
    rw [ih (dictSet d kv.1 kv.2) hk.2]
    exact dictGet?_dictSet_other d kv.1 k kv.2 hk.1

theorem dictGet?_foldSet_mem (k : String) (v : JVal) :
    ∀ (st : List (String × JVal)) (d : Dict),
      (st.map (fun p => p.1)).Nodup → (k, v) ∈ st →
      dictGet? (st.foldl (fun el kv => dictSet el kv.1 kv.2) d) k
        = some v := by
  intro st
  induction st with
  | nil => intro d _ h; simp at h
  | cons kv rest ih =>
    intro d hnd hmem
    rw [List.map_cons, List.nodup_cons] at hnd
    rw [List.foldl_cons]
    rcases List.mem_cons.mp hmem with h | h
    · subst h
      rw [dictGet?_foldSet_notmem k rest (dictSet d (k, v).1 (k, v).2)
        hnd.1]
      exact dictGet?_dictSet_same d k v
    · exact ih (dictSet d kv.1 kv.2) hnd.2 h

theorem flattenAll_mem (gw : Nat) :
    ∀ (els outs : List Dict), flattenAll gw els = some outs →
      ∀ r ∈ outs, ∃ e ∈ els, flattenLiveElement gw e = some r := by
  intro els
  induction els with
  | nil =>
    intro outs h r hr
    unfold flattenAll at h
    rw [← Option.some_inj.mp h] at hr
    simp at hr
  | cons e es ih =>
    intro outs h r hr
    unfold flattenAll at h
    cases hfe : flattenLiveElement gw e with
    | none => rw [hfe] at h; cases h
    | some r1 =>
      rw [hfe] at h
      cases hrest : flattenAll gw es with
      | none => rw [hrest] at h; cases h
      | some rs =>
        rw [hrest] at h
        rw [← Option.some_inj.mp h] at hr
        rcases List.mem_cons.mp hr with hh | hh
        · exact ⟨e, List.mem_cons_self _ _, by rw [hfe, hh]⟩
        · rcases ih rs hrest r hh with ⟨e2, he2, hfe2⟩
          exact ⟨e2, List.mem_cons_of_mem _ he2, hfe2⟩

/-- C7: every element returned by the `gameweek_live` extractor comes from
stamping `gameweek = seq` on an input element and flattening its nested
`stats` mapping onto the top level: the output holds `gameweek = seq`, every
key/value pair of `stats` (for a well-formed stats dict, whose keys are
distinct and do not themselves use the reserved names `gameweek`/`stats`),
and no `stats` key remains. -/
theorem C7_gameweek_live_flattening (gameweek : Nat) (element : Dict)
    (stats : List (String × JVal))
    (hstats : dictGet? element "stats" = some (JVal.obj stats))
    (hnd : (stats.map (fun p => p.1)).Nodup)
    (hgw : "gameweek" ∉ stats.map (fun p => p.1))
    (hss : "stats" ∉ stats.map (fun p => p.1)) :
    (∃ out, flattenLiveElement gameweek element = some out ∧
      dictGet? out "gameweek" = some (JVal.int gameweek) ∧
      (∀ k v, (k, v) ∈ stats → dictGet? out k = some v) ∧
      dictGet? out "stats" = none) ∧
    (∀ els outs, extract_gameweek_live (some els) gameweek = some outs →
      ∀ r ∈ outs, ∃ e ∈ els, flattenLiveElement gameweek e = some r) := by
  constructor
  · have hsg : ("stats" : String) ≠ "gameweek" := by decide
    have hgs : ("gameweek" : String) ≠ "stats" := by decide
    have hstats1 : dictGet? (dictSet element "gameweek"
        (JVal.int gameweek)) "stats" = some (JVal.obj stats) := by
      rw [dictGet?_dictSet_other element "gameweek" "stats"
        (JVal.int gameweek) hsg]
      exact hstats
    refine ⟨dictDel
      (stats.foldl (fun el kv => dictSet el kv.1 kv.2)
        (dictSet element "gameweek" (JVal.int gameweek))) "stats",
      ?_, ?_, ?_, ?_⟩
    · unfold flattenLiveElement
      rw [hstats1]
    · rw [dictGet?_dictDel_other _ "stats" "gameweek" hgs]
      rw [dictGet?_foldSet_notmem "gameweek" stats _ hgw]
      exact dictGet?_dictSet_same element "gameweek" (JVal.int gameweek)
    · intro k v hkv
      have hks : k ≠ "stats" := by
        intro hk
        exact hss (List.mem_map.mpr ⟨(k, v), hkv, hk.symm ▸ rfl⟩)
      rw [dictGet?_dictDel_other _ "stats" k hks]
      exact dictGet?_foldSet_mem k v stats _ hnd hkv
    · exact dictGet?_dictDel_same _ "stats"
  · intro els outs h
    unfold extract_gameweek_live at h
    exact flattenAll_mem gameweek els outs h

/-- Witness for C7: the claim's example element with
stats holding minutes 90 and goals_scored 1, and gameweek 7. -/
theorem C7_gameweek_live_flattening_witness :
    dictGet? c7Element "stats"
      = some (JVal.obj
          [("minutes", JVal.int 90), ("goals_scored", JVal.int 1)]) ∧
    (∃ out, flattenLiveElement 7 c7Element = some out ∧
      dictGet? out "gameweek" = some (JVal.int 7) ∧
      (∀ k v,
        (k, v) ∈ [("minutes", JVal.int 90), ("goals_scored", JVal.int 1)] →
        dictGet? out k = some v) ∧
      dictGet? out "stats" = none) :=
  ⟨rfl, (C7_gameweek_live_flattening 7 c7Element
    [("minutes", JVal.int 90), ("goals_scored", JVal.int 1)] rfl (by decide)
    (by decide) (by decide)).1⟩

theorem splitOnChar_cons (sep c : Char) (cs : List Char) :
    splitOnChar sep (c :: cs)
      = if c == sep then [] :: splitOnChar sep cs
        else
          match splitOnChar sep cs with
          | [] => [[c]]
          | g :: gs => (c :: g) :: gs := rfl

theorem splitOnChar_ne_nil (sep : Char) :
    ∀ l : List Char, splitOnChar sep l ≠ [] := by
  intro l
  induction l with
  | nil => simp [splitOnChar]
  | cons c cs ih =>
    rw [splitOnChar_cons]
    by_cases hc : (c == sep) = true
    · simp [hc]
    · simp only [hc, Bool.false_eq_true, if_false]
      cases hr : splitOnChar sep cs with
      | nil => simp
      | cons g gs => simp

theorem splitOnChar_sep_cons (sep : Char) (l : List Char) :
    splitOnChar sep (sep :: l) = [] :: splitOnChar sep l := by
  rw [splitOnChar_cons]
  simp

theorem splitOnChar_append_of_not_mem (sep : Char) :
    ∀ l1 r : List Char, sep ∉ l1 →
      splitOnChar sep (l1 ++ r)
        = (l1 ++ (splitOnChar sep r).headD []) :: (splitOnChar sep r).tail := by
  intro l1
  induction l1 with
  | nil =>
    intro r _
    cases hr : splitOnChar sep r with
    | nil => exact absurd hr (splitOnChar_ne_nil sep r)
    | cons g gs => simp [hr]
  | cons c l1 ih =>
    intro r hmem
    rw [List.mem_cons, not_or] at hmem
    have hc : (c == sep) = false :=
      beq_eq_false_iff_ne.mpr (fun h => hmem.1 h.symm)
    rw [List.cons_append, splitOnChar_cons]
    simp only [hc, Bool.false_eq_true, if_false]
    rw [ih r hmem.2]
    rfl

theorem splitOnChar_of_not_mem (sep : Char) {l : List Char} (h : sep ∉ l) :
    splitOnChar sep l = [l] := by
  have h0 : splitOnChar sep ([] : List Char) = [[]] := rfl
  have h2 := splitOnChar_append_of_not_mem sep l [] h
  rw [h0] at h2
  simpa using h2

theorem splitOnChar_length_ge_two (sep : Char) :
    ∀ l1 l2 : List Char, 2 ≤ (splitOnChar sep (l1 ++ sep :: l2)).length := by
  intro l1
  induction l1 with
  | nil =>
    intro l2
    rw [List.nil_append, splitOnChar_sep_cons]
    have := splitOnChar_ne_nil sep l2
    cases hs : splitOnChar sep l2 with
    | nil => exact absurd hs this
    | cons g gs => simp
  | cons c l1 ih =>
    intro l2
    rw [List.cons_append, splitOnChar_cons]
    by_cases hc : (c == sep) = true
    · rw [if_pos hc]
      have := splitOnChar_ne_nil sep (l1 ++ sep :: l2)
      cases hs : splitOnChar sep (l1 ++ sep :: l2) with
      | nil => exact absurd hs this
      | cons g gs => simp
    · rw [if_neg hc]
      have h2 := ih l2
      cases hs : splitOnChar sep (l1 ++ sep :: l2) with
      | nil => exact absurd hs (splitOnChar_ne_nil sep _)
      | cons g gs =>
        rw [hs] at h2
        simp at h2 ⊢
        omega

theorem getLastD_indep {α : Type} (l : List α) (h : l ≠ []) (d1 d2 : α) :
    l.getLastD d1 = l.getLastD d2 := by
  cases l with
  | nil => exact absurd rfl h
  | cons a as => rw [List.getLastD_cons, List.getLastD_cons]

theorem splitOnChar_getLast (sep : Char) :
    ∀ l1 l2 : List Char, sep ∉ l2 →
      (splitOnChar sep (l1 ++ sep :: l2)).getLastD [] = l2 := by
  intro l1
  induction l1 with
  | nil =>
    intro l2 h
    rw [List.nil_append, splitOnChar_sep_cons, splitOnChar_of_not_mem sep h]
    rfl
  | cons c l1 ih =>
    intro l2 h
    rw [List.cons_append, splitOnChar_cons]
    by_cases hc : (c == sep) = true
    · rw [if_pos hc, List.getLastD_cons]
      have hne := splitOnChar_ne_nil sep (l1 ++ sep :: l2)
      rw [getLastD_indep _ hne [] []]
      exact ih l2 h
    · rw [if_neg hc]
      have hlen := splitOnChar_length_ge_two sep l1 l2
      cases hs : splitOnChar sep (l1 ++ sep :: l2) with
      | nil => exact absurd hs (splitOnChar_ne_nil sep _)
      | cons g gs =>
        have hgs : gs ≠ [] := by
          rw [hs] at hlen
          simp at hlen
          intro hnil
          rw [hnil] at hlen
          simp at hlen
        have hih := ih l2 h
        rw [hs, List.getLastD_cons] at hih
        rw [List.getLastD_cons]
        rw [getLastD_indep gs hgs (c :: g) g]
        exact hih

theorem splitOnChar_getHead (sep : Char) (l1 r : List Char) (h : sep ∉ l1) :
    (splitOnChar sep (l1 ++ sep :: r)).headD [] = l1 := by
  rw [splitOnChar_append_of_not_mem sep l1 (sep :: r) h]
  rw [splitOnChar_sep_cons]
  simp

theorem archivePathFor_ddmmyyyy (table dir stem d m y : String)
    (hd : d.data.all (fun c => 48 ≤ c.toNat && c.toNat ≤ 57) = true)
    (hm : m.data.all (fun c => 48 ≤ c.toNat && c.toNat ≤ 57) = true)
    (hy : y.data.all (fun c => 48 ≤ c.toNat && c.toNat ≤ 57) = true)
    (hdl : d.length = 2) (hml : m.length = 2)
    (hstem : ('/' : Char) ∉ stem.data) :
    archivePathFor table
        (dir ++ "/" ++ (stem ++ "_" ++ (d ++ m ++ y) ++ ".json"))
      = "landing/" ++ DATA_SOURCE ++ "/archive/" ++ table ++ "/" ++
          (y ++ "/" ++ m ++ "/" ++ d ++ "/" ++
            (stem ++ "_" ++ (d ++ m ++ y) ++ ".json")) := by
  have hda : ∀ a b : String, (a ++ b).data = a.data ++ b.data := fun a b => rfl
  have hslash : ("/" : String).data = ['/'] := rfl
  have hus : ("_" : String).data = ['_'] := rfl
  have hjson : (".json" : String).data = ['.', 'j', 's', 'o', 'n'] := rfl
  have hdig : ∀ c ∈ (d.data ++ (m.data ++ y.data)),
      48 ≤ c.toNat ∧ c.toNat ≤ 57 := by
    rw [List.all_eq_true] at hd hm hy
    intro c hc
    rcases List.mem_append.mp hc with h | h
    · simpa using hd c h
    · rcases List.mem_append.mp h with h | h
      · simpa using hm c h
      · simpa using hy c h
  have husnot : ('_' : Char) ∉
      (d.data ++ (m.data ++ y.data)) ++ '.' :: ['j', 's', 'o', 'n'] := by
    intro hmem
    rcases List.mem_append.mp hmem with h | h
    · have := hdig _ h
      have h95 : ('_' : Char).toNat = 95 := rfl
      omega
    · simp at h
  have hdotnot : ('.' : Char) ∉ (d.data ++ (m.data ++ y.data)) := by
    intro hmem
    have := hdig _ hmem
    have h46 : ('.' : Char).toNat = 46 := rfl
    omega
  have hslashnot : ('/' : Char) ∉
      stem.data ++ '_' ::
        ((d.data ++ (m.data ++ y.data)) ++ '.' :: ['j', 's', 'o', 'n']) := by
    intro hmem
    rcases List.mem_append.mp hmem with h | h
    · exact hstem h
    · rcases List.mem_cons.mp h with h | h
      · exact absurd h (by decide)
      · rcases List.mem_append.mp h with h | h
        · have := hdig _ h
          have h47 : ('/' : Char).toNat = 47 := rfl
          omega
        · simp at h
  have hshape1 : (dir ++ "/" ++ (stem ++ "_" ++ (d ++ m ++ y) ++
        ".json")).data
      = (dir.data ++ '/' :: stem.data) ++ '_' ::
          ((d.data ++ (m.data ++ y.data)) ++ '.' :: ['j', 's', 'o', 'n']) := by
    simp [hda, hslash, hus, hjson, List.append_assoc]
  have hA : (splitOnChar '_' (dir ++ "/" ++ (stem ++ "_" ++ (d ++ m ++ y) ++
        ".json")).data).getLastD []
      = (d.data ++ (m.data ++ y.data)) ++ '.' :: ['j', 's', 'o', 'n'] := by
    rw [hshape1]
    exact splitOnChar_getLast '_' _ _ husnot
  have hB : (splitOnChar '.'
        ((d.data ++ (m.data ++ y.data)) ++ '.' :: ['j', 's', 'o', 'n'])).headD
        []
      = d.data ++ (m.data ++ y.data) :=
    splitOnChar_getHead '.' _ _ hdotnot
  have hdld : d.data.length = 2 := hdl
  have hmld : m.data.length = 2 := hml
  have hC1 : (d.data ++ (m.data ++ y.data)).take 2 = d.data := by
    rw [← hdld, List.take_left]
  have hdrop2 : (d.data ++ (m.data ++ y.data)).drop 2 = m.data ++ y.data := by
    rw [← hdld, List.drop_left]
  have hC2 : ((d.data ++ (m.data ++ y.data)).drop 2).take 2 = m.data := by
    rw [hdrop2, ← hmld, List.take_left]
  have hC3 : (d.data ++ (m.data ++ y.data)).drop 4 = y.data := by
    have h1 : (d.data ++ (m.data ++ y.data)).drop 4
        = ((d.data ++ (m.data ++ y.data)).drop 2).drop 2 :=
      (List.drop_drop 2 2 _).symm
    rw [h1, hdrop2, ← hmld, List.drop_left]
  have hshape2 : (dir ++ "/" ++ (stem ++ "_" ++ (d ++ m ++ y) ++
        ".json")).data
      = dir.data ++ '/' :: (stem.data ++ '_' ::
          ((d.data ++ (m.data ++ y.data)) ++ '.' :: ['j', 's', 'o', 'n'])) := by
    simp [hda, hslash, hus, hjson, List.append_assoc]
  have hbase : (stem ++ "_" ++ (d ++ m ++ y) ++ ".json").data
      = stem.data ++ '_' ::
          ((d.data ++ (m.data ++ y.data)) ++ '.' :: ['j', 's', 'o', 'n']) := by
    simp [hda, hus, hjson, List.append_assoc]
  have hD : (splitOnChar '/' (dir ++ "/" ++ (stem ++ "_" ++ (d ++ m ++ y) ++
        ".json")).data).getLastD []
      = (stem ++ "_" ++ (d ++ m ++ y) ++ ".json").data := by
    rw [hshape2, splitOnChar_getLast '/' _ _ hslashnot]
    exact hbase.symm
  unfold archivePathFor
  dsimp only
  rw [hA, hB, hC1, hC2, hC3, hD]

theorem isPrefixOf_append_self :
    ∀ p t : List Char, p.isPrefixOf (p ++ t) = true := by
  intro p
  induction p with
  | nil => intro t; simp [List.isPrefixOf]
  | cons c cs ih =>
    intro t
    simp only [List.cons_append, List.isPrefixOf]
    simp [ih t]

theorem containsSeq_of_isPrefixOf {l p : List Char}
    (h : p.isPrefixOf l = true) : containsSeq l p = true := by
  cases l with
  | nil =>
    cases p with
    | nil => rfl
    | cons c cs => simp [List.isPrefixOf] at h
  | cons c cs =>
    unfold containsSeq
    rw [h]
    rfl

theorem containsSeq_append_right (p : List Char) :
    ∀ l1 l2 : List Char, containsSeq l2 p = true →
      containsSeq (l1 ++ l2) p = true := by
  intro l1
  induction l1 with
  | nil => intro l2 h; simpa using h
  | cons c cs ih =>
    intro l2 h
    rw [List.cons_append]
    unfold containsSeq
    rw [ih l2 h]
    simp

theorem contains_archive_of_tail (table rest : String) :
    containsSeq ("landing/" ++ DATA_SOURCE ++ "/archive/" ++ table ++ "/" ++
      rest).data "/archive/".data = true := by
  have hda : ∀ a b : String, (a ++ b).data = a.data ++ b.data := fun a b => rfl
  have h1 : ("landing/" ++ DATA_SOURCE ++ "/archive/" ++ table ++ "/" ++
        rest).data
      = "landing/fpl-api".data ++ ("/archive/".data ++
          (table.data ++ ("/".data ++ rest.data))) := by
    simp [hda, DATA_SOURCE, List.append_assoc]
  rw [h1]
  apply containsSeq_append_right
  exact containsSeq_of_isPrefixOf (isPrefixOf_append_self _ _)

theorem archivePathFor_contains_archive (table file : String) :
    containsSeq (archivePathFor table file).data "/archive/".data = true := by
  unfold archivePathFor
  dsimp only
  exact contains_archive_of_tail table _

theorem uploadBlob_mem_self (blobs : List (String × List Dict))
    (path : String) (content : List Dict) :
    (path, content) ∈ uploadBlob blobs path content := by
  unfold uploadBlob
  by_cases h : blobs.any (fun b => b.1 == path) = true
  · rw [if_pos h]
    rw [List.any_eq_true] at h
    rcases h with ⟨b, hb, hbp⟩
    refine List.mem_map.mpr ⟨b, hb, ?_⟩
    rw [if_pos hbp]
  · rw [if_neg h]
    exact List.mem_append_right _ (List.mem_singleton.mpr rfl)

theorem uploadBlob_mem_other {blobs : List (String × List Dict)}
    {q : String × List Dict} (path : String) (content : List Dict)
    (hq : q ∈ blobs) (hne : q.1 ≠ path) :
    q ∈ uploadBlob blobs path content := by
  unfold uploadBlob
  by_cases h : blobs.any (fun b => b.1 == path) = true
  · rw [if_pos h]
    refine List.mem_map.mpr ⟨q, hq, ?_⟩
    rw [if_neg (by simp only [beq_iff_eq]; exact hne)]
  · rw [if_neg h]
    exact List.mem_append_left _ hq

theorem names_uploadBlob {blobs : List (String × List Dict)}
    {x path : String} {content : List Dict}
    (h : x ∈ (uploadBlob blobs path content).map (fun b => b.1)) :
    x ∈ blobs.map (fun b => b.1) ∨ x = path := by
  unfold uploadBlob at h
  by_cases ha : blobs.any (fun b => b.1 == path) = true
  · rw [if_pos ha, List.map_map] at h
    rcases List.mem_map.mp h with ⟨b, hb, hbx⟩
    by_cases hbp : (b.1 == path) = true
    · right
      simp only [Function.comp, if_pos hbp] at hbx
      exact hbx.symm
    · left
      simp only [Function.comp, if_neg hbp] at hbx
      exact List.mem_map.mpr ⟨b, hb, hbx⟩
  · rw [if_neg ha, List.map_append] at h
    rcases List.mem_append.mp h with h | h
    · exact Or.inl h
    · right
      simpa using h

theorem nodupNames_uploadBlob {blobs : List (String × List Dict)}
    (path : String) (content : List Dict)
    (h : (blobs.map (fun b => b.1)).Nodup) :
    ((uploadBlob blobs path content).map (fun b => b.1)).Nodup := by
  unfold uploadBlob
  by_cases ha : blobs.any (fun b => b.1 == path) = true
  · rw [if_pos ha]
    have hmm : (blobs.map
        (fun b => if b.1 == path then (path, content) else b)).map
          (fun b => b.1)
        = blobs.map (fun b => b.1) := by
      rw [List.map_map]
      apply List.map_congr_left
      intro b _
      by_cases hbp : (b.1 == path) = true
      · simp only [Function.comp, if_pos hbp]
        exact (beq_iff_eq.mp hbp).symm
      · simp only [Function.comp, if_neg hbp]
    rw [hmm]
    exact h
  · rw [if_neg ha, List.map_append]
    have hnp : path ∉ blobs.map (fun b => b.1) := by
      intro hmem
      rcases List.mem_map.mp hmem with ⟨b, hb, hbp⟩
      exact ha (List.any_eq_true.mpr ⟨b, hb, by simp [hbp]⟩)
    simp [List.nodup_append, h, hnp]

theorem names_filter_mem {blobs : List (String × List Dict)}
    {q : String × List Dict → Bool} {x : String}
    (h : x ∈ (blobs.filter q).map (fun b => b.1)) :
    x ∈ blobs.map (fun b => b.1) := by
  rcases List.mem_map.mp h with ⟨b, hb, hbx⟩
  exact List.mem_map.mpr ⟨b, List.mem_of_mem_filter hb, hbx⟩

theorem nodupNames_filter {blobs : List (String × List Dict)}
    (q : String × List Dict → Bool)
    (h : (blobs.map (fun b => b.1)).Nodup) :
    ((blobs.filter q).map (fun b => b.1)).Nodup :=
  h.sublist ((List.filter_sublist blobs).map (fun b => b.1))

theorem find?_name_of_mem_nodup :
    ∀ (blobs : List (String × List Dict)) (name : String)
      (content : List Dict),
      (blobs.map (fun b => b.1)).Nodup → (name, content) ∈ blobs →
      blobs.find? (fun b => b.1 == name) = some (name, content) := by
  intro blobs
  induction blobs with
  | nil => intro name content _ h; simp at h
  | cons b bs ih =>
    intro name content hnd hmem
    rw [List.map_cons, List.nodup_cons] at hnd
    rcases List.mem_cons.mp hmem with h | h
    · subst h
      simp only [List.find?_cons, beq_self_eq_true]
    · have hb1 : (b.1 == name) = false := by
        rw [beq_eq_false_iff_ne]
        intro he
        apply hnd.1
        rw [he]
        exact List.mem_map.mpr ⟨(name, content), h, rfl⟩
      simp only [List.find?_cons, hb1]
      exact ih name content hnd.2 h

theorem notMemNames_filterNe (blobs : List (String × List Dict))
    (n : String) :
    n ∉ ((blobs.filter (fun x => x.1 != n)).map (fun b => b.1)) := by
  intro h
  rcases List.mem_map.mp h with ⟨b, hb, hbn⟩
  have h2 := (List.mem_filter.mp hb).2
  rw [hbn] at h2
  simp at h2

theorem nodupNames_archiveOne (table : String)
    (blobs : List (String × List Dict)) (f : String)
    (h : (blobs.map (fun b => b.1)).Nodup) :
    ((archiveOne table blobs f).map (fun b => b.1)).Nodup := by
  unfold archiveOne
  by_cases hc : containsSeq f.data "/archive/".data = true
  · rw [if_pos hc]
    exact h
  · rw [if_neg hc]
    cases hfind : blobs.find? (fun b => b.1 == f) with
    | none => exact h
    | some b => exact nodupNames_filter _ (nodupNames_uploadBlob _ _ h)

theorem ne_archivePathFor_of_not_arch (table f : String) {n : String}
    (hnoarch : containsSeq n.data "/archive/".data = false) :
    n ≠ archivePathFor table f := by
  intro he
  rw [he, archivePathFor_contains_archive table f] at hnoarch
  cases hnoarch

theorem mem_archiveOne_of_ne (table : String)
    {blobs : List (String × List Dict)} {name : String}
    {content : List Dict} (f : String)
    (hmem : (name, content) ∈ blobs) (hne : name ≠ f)
    (hnoarch : containsSeq name.data "/archive/".data = false) :
    (name, content) ∈ archiveOne table blobs f := by
  unfold archiveOne
  by_cases hc : containsSeq f.data "/archive/".data = true
  · rw [if_pos hc]
    exact hmem
  · rw [if_neg hc]
    cases hfind : blobs.find? (fun b => b.1 == f) with
    | none => exact hmem
    | some b =>
      apply List.mem_filter.mpr
      refine ⟨uploadBlob_mem_other _ _ hmem
        (ne_archivePathFor_of_not_arch table f hnoarch), ?_⟩
      simp only [bne_iff_ne]
      exact hne

theorem notMemNames_archiveOne (table : String)
    {blobs : List (String × List Dict)} {n : String} (f : String)
    (hn : n ∉ blobs.map (fun b => b.1))
    (hnoarch : containsSeq n.data "/archive/".data = false) :
    n ∉ (archiveOne table blobs f).map (fun b => b.1) := by
  unfold archiveOne
  by_cases hc : containsSeq f.data "/archive/".data = true
  · rw [if_pos hc]
    exact hn
  · rw [if_neg hc]
    cases hfind : blobs.find? (fun b => b.1 == f) with
    | none => exact hn
    | some b =>
      intro h
      rcases names_uploadBlob (names_filter_mem h) with h3 | h3
      · exact hn h3
      · exact ne_archivePathFor_of_not_arch table f hnoarch h3

theorem archiveOne_self (table : String)
    {blobs : List (String × List Dict)} {name : String}
    {content : List Dict}
    (hnd : (blobs.map (fun b => b.1)).Nodup)
    (hmem : (name, content) ∈ blobs)
    (hnoarch : containsSeq name.data "/archive/".data = false) :
    (archivePathFor table name, content) ∈ archiveOne table blobs name ∧
    name ∉ (archiveOne table blobs name).map (fun b => b.1) := by
  unfold archiveOne
  rw [if_neg (by simp [hnoarch])]
  rw [find?_name_of_mem_nodup blobs name content hnd hmem]
  dsimp only
  constructor
  · apply List.mem_filter.mpr
    refine ⟨uploadBlob_mem_self blobs (archivePathFor table name) content,
      ?_⟩
    simp only [bne_iff_ne]
    exact (ne_archivePathFor_of_not_arch table name hnoarch).symm
  · exact notMemNames_filterNe _ name

theorem archiveOne_preserves_arch (table : String)
    {blobs : List (String × List Dict)} {ap : String}
    {content : List Dict} (f : String)
    (hmem : (ap, content) ∈ blobs)
    (haparch : containsSeq ap.data "/archive/".data = true)
    (hcf : containsSeq f.data "/archive/".data = false)
    (hapne : archivePathFor table f ≠ ap) :
    (ap, content) ∈ archiveOne table blobs f := by
  unfold archiveOne
  rw [if_neg (by simp [hcf])]
  cases hfind : blobs.find? (fun b => b.1 == f) with
  | none => exact hmem
  | some b =>
    apply List.mem_filter.mpr
    refine ⟨uploadBlob_mem_other _ _ hmem (fun he => hapne he.symm), ?_⟩
    simp only [bne_iff_ne]
    intro he
    rw [he, hcf] at haparch
    cases haparch

theorem archiveOne_of_arch (table : String)
    (blobs : List (String × List Dict)) (f : String)
    (hc : containsSeq f.data "/archive/".data = true) :
    archiveOne table blobs f = blobs := by
  unfold archiveOne
  rw [if_pos hc]

theorem fold_archive_pre (table : String) :
    ∀ (files : List String) (blobs : List (String × List Dict))
      (name : String) (content : List Dict),
      (blobs.map (fun b => b.1)).Nodup →
      (name, content) ∈ blobs →
      containsSeq name.data "/archive/".data = false →
      name ∉ files →
      ((name, content) ∈ files.foldl (archiveOne table) blobs ∧
        ((files.foldl (archiveOne table) blobs).map (fun b => b.1)).Nodup) := by
  intro files
  induction files with
  | nil =>
    intro blobs name content h1 h2 _ _
    exact ⟨h2, h1⟩
  | cons f fs ih =>
    intro blobs name content h1 h2 h3 h4
    rw [List.mem_cons] at h4
    push_neg at h4
    rw [List.foldl_cons]
    exact ih _ name content (nodupNames_archiveOne table _ f h1)
      (mem_archiveOne_of_ne table f h2 h4.1 h3) h3 h4.2

theorem fold_archive_post (table : String) :
    ∀ (files : List String) (blobs : List (String × List Dict))
      (ap name : String) (content : List Dict),
      (ap, content) ∈ blobs →
      containsSeq ap.data "/archive/".data = true →
      name ∉ blobs.map (fun b => b.1) →
      containsSeq name.data "/archive/".data = false →
      (∀ f ∈ files, containsSeq f.data "/archive/".data = false →
        archivePathFor table f ≠ ap) →
      ((ap, content) ∈ files.foldl (archiveOne table) blobs ∧
        name ∉ (files.foldl (archiveOne table) blobs).map (fun b => b.1)) := by
  intro files
  induction files with
  | nil =>
    intro blobs ap name content h1 _ h3 _ _
    exact ⟨h1, h3⟩
  | cons f fs ih =>
    intro blobs ap name content h1 h2 h3 h4 h5
    rw [List.foldl_cons]
    by_cases hcf : containsSeq f.data "/archive/".data = true
    · rw [archiveOne_of_arch table blobs f hcf]
      exact ih blobs ap name content h1 h2 h3 h4
        (fun g hg hgn => h5 g (List.mem_cons_of_mem _ hg) hgn)
    · have hcf2 : containsSeq f.data "/archive/".data = false := by
        rwa [Bool.not_eq_true] at hcf
      exact ih _ ap name content
        (archiveOne_preserves_arch table f h1 h2 hcf2
          (h5 f (List.mem_cons_self _ _) hcf2))
        h2
        (notMemNames_archiveOne table f h3 h4)
        h4
        (fun g hg hgn => h5 g (List.mem_cons_of_mem _ hg) hgn)

theorem move_existing_relocates (table : String) (s : RunState)
    (name : String) (content : List Dict)
    (hnd : (s.blobs.map (fun b => b.1)).Nodup)
    (hmem : (name, content) ∈ s.blobs)
    (hpre : ("landing/" ++ DATA_SOURCE ++ "/" ++ table ++
      "/").data.isPrefixOf name.data = true)
    (hsuf : (".json" : String).data.isSuffixOf name.data = true)
    (hnoarch : containsSeq name.data "/archive/".data = false)
    (hinj : ∀ f cf, (f, cf) ∈ s.blobs → f ≠ name →
      containsSeq f.data "/archive/".data = false →
      archivePathFor table f ≠ archivePathFor table name) :
    (archivePathFor table name, content)
      ∈ (move_existing_files_to_archive table s).blobs ∧
    name ∉ (move_existing_files_to_archive table s).blobs.map
      (fun b => b.1) := by
  have hnamemem : name ∈ (s.blobs.filter fun b =>
      ("landing/" ++ DATA_SOURCE ++ "/" ++ table ++
        "/").data.isPrefixOf b.1.data &&
      (".json" : String).data.isSuffixOf b.1.data).map (fun b => b.1) :=
    List.mem_map.mpr ⟨(name, content),
      List.mem_filter.mpr ⟨hmem,
        by simp only [Bool.and_eq_true]; exact ⟨hpre, hsuf⟩⟩, rfl⟩
  have hefnd : ((s.blobs.filter fun b =>
      ("landing/" ++ DATA_SOURCE ++ "/" ++ table ++
        "/").data.isPrefixOf b.1.data &&
      (".json" : String).data.isSuffixOf b.1.data).map
        (fun b => b.1)).Nodup := nodupNames_filter _ hnd
  unfold move_existing_files_to_archive
  dsimp only
  rw [if_neg (by
    intro hemp
    rw [List.isEmpty_iff] at hemp
    rw [hemp] at hnamemem
    simp at hnamemem)]
  dsimp only
  rcases List.append_of_mem hnamemem with ⟨l1, l2, hef⟩
  rw [hef] at hefnd
  have hnm12 : name ∉ l1 ∧ name ∉ l2 := by
    rw [List.nodup_middle, List.nodup_cons] at hefnd
    constructor
    · intro h
      exact hefnd.1 (List.mem_append_left _ h)
    · intro h
      exact hefnd.1 (List.mem_append_right _ h)
  rw [hef, List.foldl_append, List.foldl_cons]
  have hpreF := fold_archive_pre table l1 s.blobs name content hnd hmem
    hnoarch hnm12.1
  have hself := archiveOne_self table hpreF.2 hpreF.1 hnoarch
  have hselfnd := nodupNames_archiveOne table
    (l1.foldl (archiveOne table) s.blobs) name hpreF.2
  apply fold_archive_post table l2 _ _ name content hself.1
    (archivePathFor_contains_archive table name) hself.2 hnoarch
  intro f hf hfn
  have hfef : f ∈ (s.blobs.filter fun b =>
      ("landing/" ++ DATA_SOURCE ++ "/" ++ table ++
        "/").data.isPrefixOf b.1.data &&
      (".json" : String).data.isSuffixOf b.1.data).map (fun b => b.1) := by
    rw [hef]
    exact List.mem_append_right _ (List.mem_cons_of_mem _ hf)
  rcases List.mem_map.mp hfef with ⟨b, hbfil, hb1⟩
  have hbmem : (f, b.2) ∈ s.blobs := by
    rw [← hb1]
    simpa using List.mem_of_mem_filter hbfil
  have hfnename : f ≠ name := fun he => hnm12.2 (he ▸ hf)
  exact hinj f b.2 hbmem hfnename hfn

/-- C8 counterexample: for an object whose filename has no parsable
`DDMMYYYY` suffix (here `teams_x.json`, with date part `"x"`), the archive
destination is built from the raw string slices `x`, `""`, `""` — an archive
path with empty year and month segments — not from the current date: the
`except (IndexError, ValueError)` fallback in the source is unreachable,
because `split` always returns a nonempty list and Python slicing raises
neither exception.  No calendar date produces empty year/month components,
so the claimed current-date fallback never happens. -/
theorem C8_unparsable_suffix_counterexample :
    archivePathFor "teams" "landing/fpl-api/teams/teams_x.json"
      = "landing/fpl-api/archive/teams///x/teams_x.json" ∧
    (splitOnChar '/'
        ("landing/fpl-api/archive/teams///x/teams_x.json" : String).data).map
        (fun l => (⟨l⟩ : String))
      = ["landing", "fpl-api", "archive", "teams", "", "", "x",
         "teams_x.json"] := by
  constructor
  · decide
  · decide

/-- C8 amended: archival runs before the new landing write
(`processTable` is archive-then-extract by construction); every archive
destination lies under `landing/fpl-api/archive/{table}/`; in any bucket
state with distinct object names and collision-free archive destinations,
every existing non-archived landing object under the dataset namespace is
relocated — removed from its original name and present, with its content, at
`archive/{table}/{year}/{month}/{day}/{filename}`; for a well-formed
`DDMMYYYY` suffix the path components are exactly the day, month and year
slices of the date part (so `teams_01012025.json` goes to
`archive/teams/2025/01/01/teams_01012025.json`), while an unparsable suffix
yields the raw slices, never the current date. -/
theorem C8_archive_before_write :
    (∀ (table lt : String) (current : Nat) (ex? : Option (Nat → List Dict))
        (ev? : Option (List Event)) (today : String) (s : RunState),
      processTable table lt current ex? ev? today s
        = extract_and_save_to_landing table lt current ex? ev? today
            (move_existing_files_to_archive table s)) ∧
    (∀ table file : String, ∃ rest : String,
      archivePathFor table file
        = "landing/" ++ DATA_SOURCE ++ "/archive/" ++ table ++ "/" ++ rest) ∧
    (∀ (table : String) (s : RunState) (name : String) (content : List Dict),
      (s.blobs.map (fun b => b.1)).Nodup →
      (name, content) ∈ s.blobs →
      ("landing/" ++ DATA_SOURCE ++ "/" ++ table ++
        "/").data.isPrefixOf name.data = true →
      (".json" : String).data.isSuffixOf name.data = true →
      containsSeq name.data "/archive/".data = false →
      (∀ f cf, (f, cf) ∈ s.blobs → f ≠ name →
        containsSeq f.data "/archive/".data = false →
        archivePathFor table f ≠ archivePathFor table name) →
      (archivePathFor table name, content)
        ∈ (move_existing_files_to_archive table s).blobs ∧
      name ∉ (move_existing_files_to_archive table s).blobs.map
        (fun b => b.1)) ∧
    (∀ (table dir stem d m y : String),
      d.data.all (fun c => 48 ≤ c.toNat && c.toNat ≤ 57) = true →
      m.data.all (fun c => 48 ≤ c.toNat && c.toNat ≤ 57) = true →
      y.data.all (fun c => 48 ≤ c.toNat && c.toNat ≤ 57) = true →
      d.length = 2 → m.length = 2 →
      ('/' : Char) ∉ stem.data →
      archivePathFor table
          (dir ++ "/" ++ (stem ++ "_" ++ (d ++ m ++ y) ++ ".json"))
        = "landing/" ++ DATA_SOURCE ++ "/archive/" ++ table ++ "/" ++
            (y ++ "/" ++ m ++ "/" ++ d ++ "/" ++
              (stem ++ "_" ++ (d ++ m ++ y) ++ ".json"))) ∧
    (∀ (recs : List Dict) (L : List AuditEntry),
      move_existing_files_to_archive "teams"
          ⟨[("landing/fpl-api/teams/teams_01012025.json", recs)], L⟩
        = ⟨[("landing/fpl-api/archive/teams/2025/01/01/teams_01012025.json",
            recs)], L⟩) ∧
    archivePathFor "teams" "landing/fpl-api/teams/teams_01012025.json"
      = "landing/fpl-api/archive/teams/2025/01/01/teams_01012025.json" := by
  refine ⟨fun _ _ _ _ _ _ _ => rfl, fun table file => ⟨_, rfl⟩,
    ?_, ?_, fun recs L => rfl, by decide⟩
  · exact fun table s name content hnd hmem hpre hsuf hnoarch hinj =>
      move_existing_relocates table s name content hnd hmem hpre hsuf
        hnoarch hinj
  · exact fun table dir stem d m y hd hm hy hdl hml hstem =>
      archivePathFor_ddmmyyyy table dir stem d m y hd hm hy hdl hml hstem

theorem sqlMax_isSome_of_ne_nil {l : List String} (h : l ≠ []) :
    ∃ m, sqlMax l = some m := by
  cases l with
  | nil => exact absurd rfl h
  | cons a as =>
    unfold sqlMax
    rw [List.foldl_cons, sqlMax_foldl_some]
    exact ⟨_, rfl⟩

/-- C9 counterexample: with recorded watermarks 9 and 10, the maximum
recorded watermark is 10, but the read returns 9 — BigQuery's `MAX` runs on
the stored strings, and `"9"` is lexicographically greater than `"10"`. -/
theorem C9_not_numerical_max_counterexample :
    get_latest_watermark (some c9Ledger) "gameweek_live" = 9 ∧
    get_latest_watermark (some c9Ledger) "gameweek_live" ≠ 10 := by
  constructor
  · decide
  · decide

/-- C9 amended: the watermark read returns the integer parse of the
ledger's `MAX` over the stored watermark strings — the lexicographically
greatest such string, which need not be the numerical maximum — and returns
0 both when the ledger query fails and when no audit entry matches the
dataset and source; it is a total function of the ledger, so it never
raises. -/
theorem C9_watermark_read_amended :
    (∀ t : String, get_latest_watermark none t = 0) ∧
    (∀ (ledger : List AuditEntry) (t : String),
      (ledger.filter fun e =>
        e.tablename == t && e.data_source == DATA_SOURCE) = [] →
      get_latest_watermark (some ledger) t = 0) ∧
    (∀ (ledger : List AuditEntry) (t m : String),
      sqlMax (watermarkStrings ledger t) = some m →
      m ∈ watermarkStrings ledger t ∧
      (∀ x ∈ watermarkStrings ledger t, charListLe x.data m.data = true) ∧
      get_latest_watermark (some ledger) t = (decodeNat? m).getD 0) := by
  refine ⟨fun t => rfl, ?_, ?_⟩
  · intro ledger t h
    unfold get_latest_watermark watermarkStrings
    dsimp only
    rw [h]
    rfl
  · intro ledger t m h
    refine ⟨sqlMax_mem h, sqlMax_ub h, ?_⟩
    unfold get_latest_watermark
    dsimp only
    rw [h]

/-- Witness for the amended C9. -/
theorem C9_watermark_read_amended_witness :
    get_latest_watermark none "gameweek_live" = 0 ∧
    get_latest_watermark (some ([] : List AuditEntry)) "gameweek_live"
      = 0 :=
  ⟨C9_watermark_read_amended.1 "gameweek_live",
   C9_watermark_read_amended.2.1 [] "gameweek_live" rfl⟩

/-- C10 counterexample: an audit history *containing* recorded watermarks 9
and 10 (here together with 95) reads back 95 — the parse of the
lexicographically greatest stored string `"95"` — not 9, so the claim's
universal "returns 9" fails for histories that merely contain 9 and 10. -/
theorem C10_containing_9_and_10_counterexample :
    get_latest_watermark (some c10Ledger) "gameweek_live" = 95 ∧
    get_latest_watermark (some c10Ledger) "gameweek_live" ≠ 9 := by
  constructor
  · decide
  · decide

/-- C10 amended: watermarks are persisted as decimal strings
(`str(watermark_value)`, NULL for 0), the read parses the lexicographically
greatest stored string, and for every audit history whose recorded
watermarks for the dataset are exactly the values 9 and 10 the read returns
9, not 10. -/
theorem C10_lexicographic_watermark_read :
    (∀ v : Nat, v ≠ 0 → encodeWatermark v = some (encodeNat v)) ∧
    (∀ (ledger : List AuditEntry) (t m : String),
      sqlMax (watermarkStrings ledger t) = some m →
      get_latest_watermark (some ledger) t = (decodeNat? m).getD 0) ∧
    (∀ (ledger : List AuditEntry) (t : String),
      (∀ x ∈ watermarkStrings ledger t,
        x = encodeNat 9 ∨ x = encodeNat 10) →
      encodeNat 9 ∈ watermarkStrings ledger t →
      get_latest_watermark (some ledger) t = 9 ∧ (9 : Nat) ≠ 10) := by
  refine ⟨?_, ?_, ?_⟩
  · intro v hv
    unfold encodeWatermark
    rw [if_neg hv]
  · intro ledger t m h
    unfold get_latest_watermark
    dsimp only
    rw [h]
  · intro ledger t hsub hmem
    have h9 : encodeNat 9 = "9" := by decide
    have h10 : encodeNat 10 = "10" := by decide
    rw [h9] at hmem
    rw [h9, h10] at hsub
    have hne : watermarkStrings ledger t ≠ [] := by
      intro hnil
      rw [hnil] at hmem
      simp at hmem
    rcases sqlMax_isSome_of_ne_nil hne with ⟨m, hm⟩
    have hm910 : m = "9" ∨ m = "10" := hsub m (sqlMax_mem hm)
    have hmeq : m = "9" := by
      rcases hm910 with h | h
      · exact h
      · exfalso
        have := sqlMax_ub hm "9" hmem
        rw [h] at this
        exact absurd this (by decide)
    refine ⟨?_, by decide⟩
    unfold get_latest_watermark
    dsimp only
    rw [hm, hmeq]
    decide

/-- Witness for the amended C10. -/
theorem C10_lexicographic_watermark_read_witness :
    get_latest_watermark (some c9Ledger) "gameweek_live" = 9 ∧
    (9 : Nat) ≠ 10 :=
  C10_lexicographic_watermark_read.2.2 c9Ledger "gameweek_live" (by decide)
    (by decide)

/-- Witness for C1 (range instances of the claim). -/
theorem C1_incremental_request_range_witness :
    requestedRange 3 5 = [4, 5] ∧ requestedRange 5 5 = [] :=
  ⟨C1_incremental_request_range.2.2.2.1,
   C1_incremental_request_range.2.2.2.2.1⟩

/-- Witness for the amended C8 at the claim's example object: the general
relocation and date-derivation parts applied to a concrete one-object
bucket. -/
theorem C8_archive_before_write_witness :
    move_existing_files_to_archive "teams"
        ⟨[("landing/fpl-api/teams/teams_01012025.json", [])], []⟩
      = ⟨[("landing/fpl-api/archive/teams/2025/01/01/teams_01012025.json",
          [])], []⟩ ∧
    ("landing/fpl-api/archive/teams/2025/01/01/teams_01012025.json",
        ([] : List Dict))
      ∈ (move_existing_files_to_archive "teams"
          ⟨[("landing/fpl-api/teams/teams_01012025.json", [])],
            []⟩).blobs ∧
    archivePathFor "teams"
        ("landing/fpl-api/teams" ++ "/" ++
          ("teams" ++ "_" ++ ("01" ++ "01" ++ "2025") ++ ".json"))
      = "landing/" ++ DATA_SOURCE ++ "/archive/" ++ "teams" ++ "/" ++
          ("2025" ++ "/" ++ "01" ++ "/" ++ "01" ++ "/" ++
            ("teams" ++ "_" ++ ("01" ++ "01" ++ "2025") ++ ".json")) :=
  ⟨C8_archive_before_write.2.2.2.2.1 [] [],
   (C8_archive_before_write.2.2.1 "teams"
      ⟨[("landing/fpl-api/teams/teams_01012025.json", [])], []⟩
      "landing/fpl-api/teams/teams_01012025.json" [] (by decide)
      (List.mem_singleton.mpr rfl) (by decide) (by decide) (by decide)
      (fun f cf hm hne _ =>
        absurd (congrArg Prod.fst (List.mem_singleton.mp hm)) hne)).1,
   C8_archive_before_write.2.2.2.1 "teams" "landing/fpl-api/teams" "teams"
     "01" "01" "2025" (by decide) (by decide) (by decide) (by decide)
     (by decide) (by decide)⟩
